import Mathlib

set_option maxHeartbeats 1000000
set_option maxRecDepth 4000

/-!
Verification development for `checksums.py`, a recursive per-directory
integrity-manifest ("sumfile") maintenance tool.  The definitions below are a
shallow embedding of the script's pure logic: manifest parsing and
serialization, the exclusion filter, the protective-attribute write protocol,
the create/refresh/reset reconciliation pass and the verify pass.  File
contents are modelled as `List Char`, the filesystem facts a run consumes
(directory listings, on-disk existence, per-file hash outcomes, attribute-call
outcomes) are explicit fields of small state structures.
-/

namespace Checksums

/-- Python `str` whitespace characters (the ASCII ones, which are the only
ones relevant to manifest lines). -/
def isPySpace (c : Char) : Bool :=
  c == ' ' || c == '\t' || c == '\n' || c == '\r' || c == '\x0b' || c == '\x0c'

/-- A character accepted by the regex class `[a-fA-F0-9]`. -/
def isHexChar (c : Char) : Bool :=
  (('0' ≤ c) && (c ≤ '9')) || (('a' ≤ c) && (c ≤ 'f')) || (('A' ≤ c) && (c ≤ 'F'))

/-- Python `line.strip()`. -/
def pstrip (l : List Char) : List Char :=
  ((l.dropWhile isPySpace).reverse.dropWhile isPySpace).reverse

/-- Split text-mode file content into lines at newline characters (the shape
`for line in f` iterates over, with the terminators removed; `pstrip` is
applied to each line separately by the reader). -/
def splitLines : List Char → List (List Char)
  | [] => [[]]
  | c :: rest =>
    if c == '\n' then [] :: splitLines rest
    else
      match splitLines rest with
      | [] => [[c]]
      | l :: ls => (c :: l) :: ls

/-- A `*` wildcard: try the rest of the pattern at every suffix of the
name. -/
def globStar (m : List Char → Bool) : List Char → Bool
  | [] => m []
  | c :: cs => m (c :: cs) || globStar m cs

/-- Shell-glob matcher covering the wildcard forms (`*`, `?`, literals) used
by the tool's exclusion patterns (`fnmatch`). -/
def globMatch : List Char → List Char → Bool
  | [], s => s.isEmpty
  | '*' :: ps, s => globStar (globMatch ps) s
  | '?' :: ps, s =>
    match s with
    | [] => false
    | _ :: cs => globMatch ps cs
  | ch :: ps, s =>
    match s with
    | [] => false
    | c :: cs => ch == c && globMatch ps cs

def SUMFILE_NAME : String := ".checksums.sha256"

def EXCLUDED_DIRS : List String := ["$RECYCLE.BIN", "System Volume Information"]

def EXCLUDED_FILES : List String := ["desktop.ini", "*.sha256"]

/-- `is_excluded(name, patterns)`. -/
def is_excluded (name : String) (patterns : List String) : Bool :=
  patterns.any (fun p => globMatch p.data name.data)

/-- `os.path.join` (the separator itself plays no role in the verified
properties). -/
def pjoin (a b : String) : String := a ++ "/" ++ b

/-- `str.endswith`. -/
def endsWithStr (s suffix : String) : Bool := suffix.data.isSuffixOf s.data

/-- The GNU-style line regex of `read_sumfile`:
`(?P<checksum>[a-fA-F0-9]{64})(\s{2}|\s\*)(?P<filename>.+)`, matched at the
start of the (stripped) line; returns `(filename, checksum)`. -/
def gnuMatch (s : List Char) : Option (String × String) :=
  let d := s.take 64
  let rest := s.drop 64
  if d.length = 64 && d.all isHexChar then
    match rest with
    | a :: b :: f1 :: fs =>
      if isPySpace a && (isPySpace b || b == '*') then
        some (String.mk (f1 :: fs), String.mk d)
      else none
    | _ => none
  else none

/-- Tail of the BSD-style regex after the greedy filename group:
`\)\s=\s(?P<checksum>[a-fA-F0-9]{64})` (trailing characters permitted, since
the pattern is matched with `re.match`, not `fullmatch`). -/
def bsdTail (cs : List Char) : Bool :=
  match cs with
  | ')' :: a :: '=' :: b :: rest =>
    isPySpace a && isPySpace b && decide (64 ≤ rest.length) && (rest.take 64).all isHexChar
  | _ => false

/-- The checksum captured by `bsdTail` (the 64 hex characters after `)\s=\s`). -/
def bsdCk (cs : List Char) : List Char := (cs.drop 4).take 64

/-- Backtracking search for the greedy `.+` filename group of the BSD regex:
the longest nonempty prefix whose remainder matches `bsdTail` wins. -/
def bsdFind (acc : List Char) : List Char → Option (List Char × List Char)
  | [] => none
  | c :: rest =>
    match bsdFind (acc ++ [c]) rest with
    | some r => some r
    | none =>
      if !acc.isEmpty && bsdTail (c :: rest) then some (acc, bsdCk (c :: rest))
      else none

/-- The BSD-style line regex of `read_sumfile`:
`SHA256\s\((?P<filename>.+)\)\s=\s(?P<checksum>[a-fA-F0-9]{64})`;
returns `(filename, checksum)`. -/
def bsdMatch (s : List Char) : Option (String × String) :=
  match s with
  | 'S' :: 'H' :: 'A' :: '2' :: '5' :: '6' :: a :: '(' :: rest =>
    if isPySpace a then
      match bsdFind [] rest with
      | some (fn, ck) => some (String.mk fn, String.mk ck)
      | none => none
    else none
  | _ => none

/-- Insertion-ordered dict update: overwrite in place when the key is present,
append otherwise (Python `dict` assignment semantics; all dicts in the script
are built this way, so keys are never duplicated). -/
def insertA : List (String × String) → String → String → List (String × String)
  | [], k, v => [(k, v)]
  | p :: rest, k, v => if p.1 == k then (k, v) :: rest else p :: insertA rest k v

def hasKey (m : List (String × String)) (k : String) : Bool :=
  m.any (fun p => p.1 == k)

def lookupk (m : List (String × String)) (k : String) : Option String :=
  (m.find? (fun p => p.1 == k)).map Prod.snd

/-- The line-processing loop of `read_sumfile`, over already-split lines.
`ex` is the set of names for which `os.path.exists(os.path.join(dpath, ·))`
holds at load time (stale-entry pruning); `none` models the `ValueError`
raised when a non-empty, non-comment line matches neither pattern. -/
def read_sumfile_lines (ex : List String) :
    List (List Char) → List (String × String) → Option (List (String × String))
  | [], acc => some acc
  | l :: ls, acc =>
    match pstrip l with
    | [] => read_sumfile_lines ex ls acc
    | c :: cs =>
      if c == '#' || c == ';' then read_sumfile_lines ex ls acc
      else
        match gnuMatch (c :: cs) <|> bsdMatch (c :: cs) with
        | some (fn, ck) =>
          if ex.contains fn then read_sumfile_lines ex ls (insertA acc fn ck)
          else read_sumfile_lines ex ls acc
        | none => none

/-- `read_sumfile`: parse manifest text into an ordered filename-to-digest
mapping, pruning entries whose target does not exist.  `none` = `ValueError`
(unparseable line, fails closed for the whole file). -/
def read_sumfile (content : List Char) (ex : List String) :
    Option (List (String × String)) :=
  read_sumfile_lines ex (splitLines content) []

/-- One serialized manifest line without its terminator:
`f"{checksum}  {filename}"`. -/
def gnuLine (p : String × String) : List Char :=
  p.2.data ++ [' ', ' '] ++ p.1.data

/-- One serialized manifest line: `f"{checksum}  {filename}\n"`. -/
def serializeEntry (p : String × String) : List Char :=
  gnuLine p ++ ['\n']

/-- The content `write_sumfile` flushes for a mapping. -/
def serializeManifest (m : List (String × String)) : List Char :=
  (m.map serializeEntry).flatten

/-- A line the strict parser rejects: non-empty after stripping, not a
comment, and matched by neither recognized pattern. -/
def badLine (l : List Char) : Bool :=
  match pstrip l with
  | [] => false
  | c :: cs =>
    !(c == '#' || c == ';') && (gnuMatch (c :: cs)).isNone && (bsdMatch (c :: cs)).isNone

/-- The kept `(filename, checksum)` pairs of a manifest in line order, before
dict collapsing (used to state order preservation of `read_sumfile`). -/
def keptLines (ex : List String) : List (List Char) → Option (List (String × String))
  | [] => some []
  | l :: ls =>
    match pstrip l with
    | [] => keptLines ex ls
    | c :: cs =>
      if c == '#' || c == ';' then keptLines ex ls
      else
        match gnuMatch (c :: cs) <|> bsdMatch (c :: cs) with
        | some (fn, ck) =>
          if ex.contains fn then (keptLines ex ls).map (fun r => (fn, ck) :: r)
          else keptLines ex ls
        | none => none

/-- First-seen key order: the keys a dict built by repeated assignment ends up
with, when the assignments arrive in the given order on top of `acc`. -/
def keysAfter (acc : List String) : List String → List String
  | [] => acc
  | k :: ks => if acc.contains k then keysAfter acc ks else keysAfter (acc ++ [k]) ks

/-- Uncurried `insertA`, the dict-assignment step folded over kept lines. -/
def insPair (m : List (String × String)) (q : String × String) :
    List (String × String) :=
  insertA m q.1 q.2

/-- A 64-character string of `[a-fA-F0-9]` characters (the shape of every
digest the tool computes or parses). -/
def isHex64 (s : String) : Bool :=
  (s.data.length == 64) && s.data.all isHexChar

/-- A filename that survives the tool's own line format: nonempty, free of
newlines, and not ending in whitespace that `line.strip()` would eat. -/
def wfName (n : String) : Bool :=
  match n.data.reverse with
  | [] => false
  | c :: _ => !n.data.contains '\n' && !isPySpace c

/-- Shape every parsed manifest entry has: a 64-hex digest and a nonempty,
newline-free filename. -/
def wfEntry (p : String × String) : Prop :=
  isHex64 p.2 = true ∧ p.1.data ≠ [] ∧ '\n' ∉ p.1.data

/-! ### Protective-attribute write protocol (`write_sumfile` with the
`unprotect_file` / `protect_file` calls around the content write).

`get_attributes` maps any `GetFileAttributesW` failure to `FileNotFoundError`;
`set_attributes` raises `IOError` when `SetFileAttributesW` fails; opening the
file for writing can raise `PermissionError`.  The environment records which
of the five external calls succeed; the state records the manifest file's
existence, content and attribute bits. -/

inductive PyErr
  | fileNotFound
  | permission
  | ioErr
  | valueErr
  deriving DecidableEq

structure AttrFS where
  sumExists : Bool
  content : List Char
  attrs : Nat
  deriving DecidableEq

structure AttrEnv where
  getOk1 : Bool
  setOk1 : Bool
  openOk : Bool
  getOk2 : Bool
  setOk2 : Bool
  deriving DecidableEq

/-- `attrs & ~0x03` on the attribute bits. -/
def clearProtectBits (a : Nat) : Nat := a / 4 * 4

/-- `attrs | 0x03` on the attribute bits. -/
def setProtectBits (a : Nat) : Nat := a / 4 * 4 + 3

/-- `write_sumfile(sumfile, data)`: unprotect if the file exists, truncate and
write the serialized mapping, then re-protect.  Returns the final filesystem
state together with the exception raised, if any. -/
def write_sumfile (env : AttrEnv) (st : AttrFS) (data : List (String × String)) :
    AttrFS × Option PyErr :=
  if st.sumExists && !env.getOk1 then (st, some PyErr.fileNotFound)
  else if st.sumExists && !env.setOk1 then (st, some PyErr.ioErr)
  else
    let st1 := if st.sumExists then { st with attrs := clearProtectBits st.attrs } else st
    if !env.openOk then (st1, some PyErr.permission)
    else
      let st2 := { st1 with sumExists := true, content := serializeManifest data }
      if !env.getOk2 then (st2, some PyErr.fileNotFound)
      else if !env.setOk2 then (st2, some PyErr.ioErr)
      else ({ st2 with attrs := setProtectBits st2.attrs }, none)

/-! ### Reconciliation and verification drivers (`main`).

A `DirSt` packages everything one visited directory contributes to a run: the
walk listing, hidden flags and modification times, the outcome `get_checksum`
would produce per name (`.vanished` = `FileNotFoundError`, `.denied` =
`PermissionError`; names not in the table have vanished), on-disk existence
for stale-entry pruning, and the create-branch sumfile's state.  For the
verify branch, `vIsFile` / `vReadOk` / `vContent` describe the `*.sha256`
files found in the listing. -/

inductive HashResult
  | hashed (d : String)
  | vanished
  | denied
  deriving DecidableEq

structure FileEntry where
  name : String
  hidden : Bool
  mtime : Nat
  deriving DecidableEq

structure DirSt where
  dirPath : String
  dirHidden : Bool
  files : List FileEntry
  hashes : List (String × HashResult)
  onDisk : List String
  sumIsFile : Bool
  sumContent : List Char
  sumMtime : Nat
  sumReadOk : Bool
  writeOk : Bool
  newMtime : Nat
  vIsFile : List String
  vReadOk : List String
  vContent : List (String × List Char)
  deriving DecidableEq

/-- Outcome of `get_checksum(path.join(root, n))`: a name with no recorded
outcome has vanished (`FileNotFoundError`). -/
def hashLookup (hs : List (String × HashResult)) (n : String) : HashResult :=
  match hs.find? (fun p => p.1 == n) with
  | some p => p.2
  | none => HashResult.vanished

def contentLookup (cs : List (String × List Char)) (n : String) : List Char :=
  match cs.find? (fun p => p.1 == n) with
  | some p => p.2
  | none => []

/-- One console line: `+` added, `?` missing, `!` permission denied,
`X` mismatch. -/
inductive Report
  | added (p : String)
  | missing (p : String)
  | denied (p : String)
  | mismatch (p : String)
  deriving DecidableEq

/-- Loop state of the create branch: the `checksums` dict, the `write` flag,
the reports printed so far, and (instrumentation) the names `get_checksum`
has been invoked on. -/
structure LoopSt where
  sums : List (String × String)
  write : Bool
  reports : List Report
  hashed : List String
  deriving DecidableEq

/-- Body of `for filename in files:` in the create branch. -/
def createStep (hiddenF refresh : Bool) (mt0 : Nat) (root : String)
    (hashes : List (String × HashResult)) (s : LoopSt) (f : FileEntry) : LoopSt :=
  if (!refresh && hasKey s.sums f.name) || (!hiddenF && f.hidden)
      || is_excluded f.name EXCLUDED_FILES then s
  else if refresh && decide (f.mtime ≤ mt0) && hasKey s.sums f.name then s
  else
    match hashLookup hashes f.name with
    | HashResult.vanished =>
      { s with reports := s.reports ++ [Report.missing (pjoin root f.name)],
               hashed := s.hashed ++ [f.name] }
    | HashResult.denied =>
      { s with reports := s.reports ++ [Report.denied (pjoin root f.name)],
               hashed := s.hashed ++ [f.name] }
    | HashResult.hashed d =>
      ⟨insertA s.sums f.name d, true,
       s.reports ++ [Report.added (pjoin root f.name)], s.hashed ++ [f.name]⟩

/-- Loading of the existing manifest at the top of the create branch:
`some (checksums, checksums_mtime)` on success, `none` when the
`PermissionError` / `ValueError` handler fires (directory is skipped). -/
def createLoad (reset : Bool) (st : DirSt) :
    Option (List (String × String) × Nat) :=
  if st.sumIsFile && !reset then
    if !st.sumReadOk then none
    else
      match read_sumfile st.sumContent st.onDisk with
      | none => none
      | some m => some (m, st.sumMtime)
  else some ([], 0)

/-- `print(f'! {filepath}')` after a failed `write_sumfile` uses the loop
variable left over from the last iteration. -/
def lastName (root : String) (files : List FileEntry) : String :=
  match files.getLast? with
  | some f => pjoin root f.name
  | none => root

structure CreateOut where
  reports : List Report
  finalSums : List (String × String)
  didWrite : Bool
  hashedNames : List String
  written : Option (List (String × String))
  newSt : DirSt
  deriving DecidableEq

/-- The create branch of `main` for one visited directory. -/
def createDir (hiddenF reset refresh : Bool) (st : DirSt) : CreateOut :=
  let sumPath := pjoin st.dirPath SUMFILE_NAME
  match createLoad reset st with
  | none => ⟨[Report.denied sumPath], [], false, [], none, st⟩
  | some (m0, mt0) =>
    let s := st.files.foldl (createStep hiddenF refresh mt0 st.dirPath st.hashes)
      ⟨m0, false, [], []⟩
    if s.write && !s.sums.isEmpty then
      if st.writeOk then
        ⟨s.reports, s.sums, s.write, s.hashed, some s.sums,
         { st with sumIsFile := true, sumContent := serializeManifest s.sums,
                   sumMtime := st.newMtime }⟩
      else
        ⟨s.reports ++ [Report.denied (lastName st.dirPath st.files)], s.sums,
         s.write, s.hashed, none, st⟩
    else ⟨s.reports, s.sums, s.write, s.hashed, none, st⟩

/-- Verify-branch loop state.  `cn` is the `checksum_new` local, which Python
never resets between entries, manifests or directories; `crashed` records the
`NameError` raised when the comparison reads it before any assignment. -/
structure VerifySt where
  reports : List Report
  cn : Option String
  crashed : Bool
  deriving DecidableEq

def lowerStr (s : String) : String := String.mk (s.data.map Char.toLower)

/-- Body of `for filename, checksum_old in checksums.items():`.  Note that the
comparison runs even when `get_checksum` raised, against whatever value
`checksum_new` held before. -/
def verifyEntryStep (root : String) (hashes : List (String × HashResult))
    (v : VerifySt) (e : String × String) : VerifySt :=
  if v.crashed then v
  else
    let fp := pjoin root e.1
    let v1 :=
      match hashLookup hashes e.1 with
      | HashResult.hashed d => { v with cn := some d }
      | HashResult.vanished => { v with reports := v.reports ++ [Report.missing fp] }
      | HashResult.denied => { v with reports := v.reports ++ [Report.denied fp] }
    match v1.cn with
    | none => { v1 with crashed := true }
    | some d =>
      if lowerStr d == lowerStr e.2 then v1
      else { v1 with reports := v1.reports ++ [Report.mismatch fp] }

/-- Body of `for f in files:` in the verify branch. -/
def verifyFileStep (st : DirSt) (v : VerifySt) (f : FileEntry) : VerifySt :=
  if v.crashed then v
  else if !endsWithStr f.name ".sha256" then v
  else if !st.vIsFile.contains f.name then v
  else
    let sp := pjoin st.dirPath f.name
    if !st.vReadOk.contains f.name then
      { v with reports := v.reports ++ [Report.denied sp] }
    else
      match read_sumfile (contentLookup st.vContent f.name) st.onDisk with
      | none => { v with reports := v.reports ++ [Report.denied sp] }
      | some m => m.foldl (verifyEntryStep st.dirPath st.hashes) v

/-- The verify branch of `main` for one visited directory. -/
def verifyDir (st : DirSt) (v : VerifySt) : VerifySt :=
  st.files.foldl (verifyFileStep st) v

structure MainOut where
  reports : List Report
  states : List DirSt
  cn : Option String
  crashed : Bool
  deriving DecidableEq

/-- One iteration of `for (root, dirs, files) in os.walk(...)`, including the
directory-level skips and the mode dispatch. -/
def mainStep (createF verifyF reset refresh hiddenF : Bool)
    (acc : MainOut) (st : DirSt) : MainOut :=
  if acc.crashed then { acc with states := acc.states ++ [st] }
  else if st.files.isEmpty || (st.files.map FileEntry.name).contains ".nochecksums"
      || is_excluded st.dirPath EXCLUDED_DIRS || (!hiddenF && st.dirHidden) then
    { acc with states := acc.states ++ [st] }
  else
    match createF, verifyF with
    | true, _ =>
      let o := createDir hiddenF reset refresh st
      { acc with reports := acc.reports ++ o.reports, states := acc.states ++ [o.newSt] }
    | false, true =>
      let v := verifyDir st ⟨[], acc.cn, false⟩
      { reports := acc.reports ++ v.reports, states := acc.states ++ [st],
        cn := v.cn, crashed := v.crashed }
    | false, false => { acc with states := acc.states ++ [st] }

/-- The whole walk of `main` over the visited directories, given the parsed
command-line flags.  `cn0` is the initial (unbound, when `none`) value of the
verify branch's `checksum_new` local. -/
def mainRun (createF verifyF reset refresh hiddenF : Bool)
    (dirs : List DirSt) (cn0 : Option String) : MainOut :=
  dirs.foldl (mainStep createF verifyF reset refresh hiddenF) ⟨[], [], cn0, false⟩

/-! ### Concrete fixtures (sample digests and directory states used to
instantiate the theorems) -/

def DA : String := String.mk (List.replicate 64 'a')

def DB : String := String.mk (List.replicate 64 'b')

def DC : String := String.mk (List.replicate 64 'c')

def baseDir : DirSt :=
  { dirPath := "r", dirHidden := false, files := [], hashes := [], onDisk := [],
    sumIsFile := false, sumContent := [], sumMtime := 0, sumReadOk := true,
    writeOk := true, newMtime := 0, vIsFile := [], vReadOk := [], vContent := [] }

/-- Fixture: manifest holds `a` (mtime equal to the manifest's), listing adds a
new file `b`. -/
def stC1 : DirSt :=
  { baseDir with
    files := [⟨"a", false, 1⟩, ⟨"b", false, 5⟩],
    hashes := [("a", HashResult.hashed DC), ("b", HashResult.hashed DB)],
    onDisk := ["a", "b"],
    sumIsFile := true, sumContent := serializeManifest [("a", DA)], sumMtime := 1 }

/-- Fixture: manifest holds `a`, which is stale and vanishes between listing
and hashing; `b` is new and hashes fine. -/
def stC2 : DirSt :=
  { baseDir with
    files := [⟨"a", false, 5⟩, ⟨"b", false, 5⟩],
    hashes := [("b", HashResult.hashed DB)],
    onDisk := ["a", "b"],
    sumIsFile := true, sumContent := serializeManifest [("a", DA)], sumMtime := 1 }

/-- Fixture for verify: one manifest listing `a` (matches) then `b`
(vanished, stored digest differs from `a`'s). -/
def stC3 : DirSt :=
  { baseDir with
    files := [⟨"m.sha256", false, 0⟩],
    hashes := [("a", HashResult.hashed DA)],
    onDisk := ["a", "b"],
    vIsFile := ["m.sha256"], vReadOk := ["m.sha256"],
    vContent := [("m.sha256", serializeManifest [("a", DA), ("b", DB)])] }

/-- Same manifest with the vanished entry first, so the comparison reads the
never-assigned `checksum_new`. -/
def stC3b : DirSt :=
  { stC3 with
    vContent := [("m.sha256", serializeManifest [("b", DB), ("a", DA)])] }

/-- Fixture: a loaded manifest entry for the excluded name `desktop.ini`,
plus a new file `b` that forces a manifest write. -/
def stC9 : DirSt :=
  { baseDir with
    files := [⟨"b", false, 5⟩],
    hashes := [("b", HashResult.hashed DB)],
    onDisk := ["desktop.ini", "b"],
    sumIsFile := true, sumContent := serializeManifest [("desktop.ini", DA)],
    sumMtime := 1 }

/-- Attribute-protocol fixture: every external call succeeds except the final
`SetFileAttributesW` of `protect_file`. -/
def envC6 : AttrEnv := ⟨true, true, true, true, false⟩

def fsC6 : AttrFS := ⟨true, ['o'], 7⟩

/-- Manifest text fixture: a comment line, then entries for `x`, `gone`
(whose file no longer exists) and `y`. -/
def cC5 : List Char :=
  '#' :: ' ' :: 'c' :: '\n' :: serializeManifest [("x", DA), ("gone", DB), ("y", DC)]

/-! ### Association-list lemmas -/

theorem hasKey_nil (k : String) : hasKey [] k = false := rfl

theorem hasKey_cons (p : String × String) (m : List (String × String)) (k : String) :
    hasKey (p :: m) k = (p.1 == k || hasKey m k) := by
  simp [hasKey, List.any_cons]

theorem insertA_hasKey_iff (m : List (String × String)) (k v k' : String) :
    hasKey (insertA m k v) k' = true ↔ (k' = k ∨ hasKey m k' = true) := by
  induction m with
  | nil =>
    simp only [insertA, hasKey, List.any_cons, List.any_nil, Bool.or_false, beq_iff_eq]
    constructor
    · intro h; exact Or.inl h.symm
    · rintro (h | h)
      · exact h.symm
      · simp at h
  | cons p rest ih =>
    by_cases h : p.1 = k
    · have h1 : (p.1 == k) = true := beq_iff_eq.mpr h
      simp only [insertA, h1, if_true, hasKey, List.any_cons, beq_iff_eq,
        Bool.or_eq_true, h]
      tauto
    · have h' : (p.1 == k) = false := beq_eq_false_iff_ne.mpr h
      simp only [insertA, h', if_false, Bool.false_eq_true, hasKey_cons]
      constructor
      · rintro hh
        rcases Bool.or_eq_true_iff.mp hh with hh | hh
        · exact Or.inr (Bool.or_eq_true_iff.mpr (Or.inl hh))
        · rcases ih.mp hh with hh | hh
          · exact Or.inl hh
          · exact Or.inr (Bool.or_eq_true_iff.mpr (Or.inr hh))
      · rintro (hh | hh)
        · exact Bool.or_eq_true_iff.mpr (Or.inr (ih.mpr (Or.inl hh)))
        · rcases Bool.or_eq_true_iff.mp hh with hh | hh
          · exact Bool.or_eq_true_iff.mpr (Or.inl hh)
          · exact Bool.or_eq_true_iff.mpr (Or.inr (ih.mpr (Or.inr hh)))

theorem insertA_hasKey_self (m : List (String × String)) (k v : String) :
    hasKey (insertA m k v) k = true :=
  (insertA_hasKey_iff m k v k).mpr (Or.inl rfl)

theorem lookupk_cons (p : String × String) (m : List (String × String)) (k : String) :
    lookupk (p :: m) k = if p.1 == k then some p.2 else lookupk m k := by
  by_cases h : p.1 == k
  · simp [lookupk, List.find?, h]
  · simp only [Bool.not_eq_true] at h
    simp [lookupk, List.find?, h]

theorem insertA_lookupk_ne (m : List (String × String)) (k v k' : String)
    (h : k' ≠ k) : lookupk (insertA m k v) k' = lookupk m k' := by
  have hk : (k == k') = false := beq_eq_false_iff_ne.mpr (fun hh => h hh.symm)
  induction m with
  | nil => simp [insertA, lookupk, List.find?, hk]
  | cons p rest ih =>
    by_cases hp : p.1 = k
    · simp [insertA, hp, lookupk_cons, hk]
    · have hp' : (p.1 == k) = false := beq_eq_false_iff_ne.mpr hp
      simp [insertA, hp', lookupk_cons, ih]

theorem insertA_mem (m : List (String × String)) (k v : String)
    (p : String × String) (h : p ∈ insertA m k v) : p ∈ m ∨ p = (k, v) := by
  induction m with
  | nil => simp [insertA] at h; exact Or.inr h
  | cons q rest ih =>
    by_cases hq : q.1 = k
    · have hq' : (q.1 == k) = true := beq_iff_eq.mpr hq
      simp only [insertA, hq', if_true] at h
      rcases List.mem_cons.mp h with h | h
      · exact Or.inr h
      · exact Or.inl (List.mem_cons_of_mem _ h)
    · have hq' : (q.1 == k) = false := beq_eq_false_iff_ne.mpr hq
      simp only [insertA, hq', Bool.false_eq_true, if_false] at h
      rcases List.mem_cons.mp h with h | h
      · exact Or.inl (List.mem_cons.mpr (Or.inl h))
      · rcases ih h with h | h
        · exact Or.inl (List.mem_cons_of_mem _ h)
        · exact Or.inr h

theorem insertA_eq_append (m : List (String × String)) (k v : String)
    (h : hasKey m k = false) : insertA m k v = m ++ [(k, v)] := by
  induction m with
  | nil => simp [insertA]
  | cons p rest ih =>
    rw [hasKey_cons, Bool.or_eq_false_iff] at h
    simp [insertA, h.1, ih h.2]

theorem insertA_map_fst (m : List (String × String)) (k v : String) :
    (insertA m k v).map Prod.fst =
      if hasKey m k then m.map Prod.fst else m.map Prod.fst ++ [k] := by
  induction m with
  | nil => simp [insertA, hasKey]
  | cons p rest ih =>
    by_cases hp : p.1 = k
    · have hp' : (p.1 == k) = true := beq_iff_eq.mpr hp
      simp [insertA, hp', hasKey_cons, hp]
    · have hp' : (p.1 == k) = false := beq_eq_false_iff_ne.mpr hp
      simp only [insertA, hp', Bool.false_eq_true, if_false, List.map_cons,
        hasKey_cons, Bool.false_or, ih]
      by_cases hk : hasKey rest k = true
      · simp [hk]
      · simp only [Bool.not_eq_true] at hk
        simp [hk]

theorem hasKey_append (m₁ m₂ : List (String × String)) (k : String) :
    hasKey (m₁ ++ m₂) k = (hasKey m₁ k || hasKey m₂ k) := by
  simp [hasKey, List.any_append]

theorem hasKey_iff_exists (m : List (String × String)) (k : String) :
    hasKey m k = true ↔ ∃ v, (k, v) ∈ m := by
  constructor
  · intro h
    rcases List.any_eq_true.mp h with ⟨p, hp, he⟩
    exact ⟨p.2, by rcases p with ⟨a, b⟩; cases beq_iff_eq.mp he; exact hp⟩
  · rintro ⟨v, hv⟩
    exact List.any_eq_true.mpr ⟨(k, v), hv, beq_iff_eq.mpr rfl⟩

theorem insertA_hasKey_ne (m : List (String × String)) (k v k' : String)
    (h : k' ≠ k) : hasKey (insertA m k v) k' = hasKey m k' := by
  by_cases hk : hasKey m k' = true
  · rw [hk, ((insertA_hasKey_iff m k v k').mpr (Or.inr hk))]
  · have hk' : hasKey m k' = false := by simpa using hk
    rw [hk']
    by_contra hc
    have : hasKey (insertA m k v) k' = true := by
      cases hb : hasKey (insertA m k v) k'
      · exact absurd hb hc
      · rfl
    rcases (insertA_hasKey_iff m k v k').mp this with h1 | h1
    · exact h h1
    · rw [h1] at hk'; exact absurd hk' (by simp)

/-! ### Create-branch loop lemmas -/

/-- The three shapes one iteration of the create loop can take: skip, failed
hash (report only), successful hash (entry inserted, `write` set). -/
theorem createStep_cases (hiddenF refresh : Bool) (mt0 : Nat) (root : String)
    (hashes : List (String × HashResult)) (s : LoopSt) (f : FileEntry) :
    createStep hiddenF refresh mt0 root hashes s f = s ∨
    (∃ r, createStep hiddenF refresh mt0 root hashes s f =
        { s with reports := s.reports ++ [r], hashed := s.hashed ++ [f.name] } ∧
      (r = Report.missing (pjoin root f.name) ∨ r = Report.denied (pjoin root f.name))) ∨
    (∃ d, hashLookup hashes f.name = HashResult.hashed d ∧
      createStep hiddenF refresh mt0 root hashes s f =
        ⟨insertA s.sums f.name d, true,
         s.reports ++ [Report.added (pjoin root f.name)], s.hashed ++ [f.name]⟩) := by
  unfold createStep
  by_cases h1 : ((!refresh && hasKey s.sums f.name) || (!hiddenF && f.hidden)
      || is_excluded f.name EXCLUDED_FILES) = true
  · rw [if_pos h1]; exact Or.inl rfl
  · rw [if_neg h1]
    by_cases h2 : (refresh && decide (f.mtime ≤ mt0) && hasKey s.sums f.name) = true
    · rw [if_pos h2]; exact Or.inl rfl
    · rw [if_neg h2]
      cases hh : hashLookup hashes f.name with
      | vanished => exact Or.inr (Or.inl ⟨_, rfl, Or.inl rfl⟩)
      | denied => exact Or.inr (Or.inl ⟨_, rfl, Or.inr rfl⟩)
      | hashed d => exact Or.inr (Or.inr ⟨d, rfl, rfl⟩)

theorem createStep_write_mono (hiddenF refresh : Bool) (mt0 : Nat) (root : String)
    (hashes : List (String × HashResult)) (s : LoopSt) (f : FileEntry)
    (h : s.write = true) :
    (createStep hiddenF refresh mt0 root hashes s f).write = true := by
  rcases createStep_cases hiddenF refresh mt0 root hashes s f with hc | ⟨r, hc, _⟩ | ⟨d, _, hc⟩
    <;> rw [hc]
  · exact h
  · exact h

theorem createStep_reports_sub (hiddenF refresh : Bool) (mt0 : Nat) (root : String)
    (hashes : List (String × HashResult)) (s : LoopSt) (f : FileEntry)
    (r : Report) (h : r ∈ s.reports) :
    r ∈ (createStep hiddenF refresh mt0 root hashes s f).reports := by
  rcases createStep_cases hiddenF refresh mt0 root hashes s f with hc | ⟨r', hc, _⟩ | ⟨d, _, hc⟩
    <;> rw [hc] <;> first | exact h | exact List.mem_append_left _ h

theorem createStep_hasKey_mono (hiddenF refresh : Bool) (mt0 : Nat) (root : String)
    (hashes : List (String × HashResult)) (s : LoopSt) (f : FileEntry)
    (n : String) (h : hasKey s.sums n = true) :
    hasKey (createStep hiddenF refresh mt0 root hashes s f).sums n = true := by
  rcases createStep_cases hiddenF refresh mt0 root hashes s f with hc | ⟨r', hc, _⟩ | ⟨d, _, hc⟩
    <;> rw [hc]
  · exact h
  · exact h
  · exact (insertA_hasKey_iff _ _ _ _).mpr (Or.inr h)

theorem createStep_added (hiddenF refresh : Bool) (mt0 : Nat) (root : String)
    (hashes : List (String × HashResult)) (s : LoopSt) (f : FileEntry)
    (p : String) (h : Report.added p ∈ (createStep hiddenF refresh mt0 root hashes s f).reports) :
    Report.added p ∈ s.reports ∨
      (createStep hiddenF refresh mt0 root hashes s f).write = true := by
  rcases createStep_cases hiddenF refresh mt0 root hashes s f with hc | ⟨r', hc, hr⟩ | ⟨d, _, hc⟩
  · rw [hc] at h; exact Or.inl h
  · rw [hc] at h
    rcases List.mem_append.mp h with h | h
    · exact Or.inl h
    · rcases hr with rfl | rfl <;> simp at h
  · rw [hc]; exact Or.inr rfl

/-- A file whose name matches a file-exclusion pattern is skipped outright. -/
theorem createStep_excluded (hiddenF refresh : Bool) (mt0 : Nat) (root : String)
    (hashes : List (String × HashResult)) (s : LoopSt) (f : FileEntry)
    (hex : is_excluded f.name EXCLUDED_FILES = true) :
    createStep hiddenF refresh mt0 root hashes s f = s := by
  unfold createStep
  rw [if_pos (by simp [hex])]

/-- Iterations on files with a different name leave everything the loop tracks
about the name `n` unchanged. -/
theorem createStep_frame (hiddenF refresh : Bool) (mt0 : Nat) (root : String)
    (hashes : List (String × HashResult)) (s : LoopSt) (f : FileEntry)
    (n : String) (hne : f.name ≠ n) :
    lookupk (createStep hiddenF refresh mt0 root hashes s f).sums n = lookupk s.sums n ∧
    hasKey (createStep hiddenF refresh mt0 root hashes s f).sums n = hasKey s.sums n ∧
    (n ∈ (createStep hiddenF refresh mt0 root hashes s f).hashed ↔ n ∈ s.hashed) := by
  rcases createStep_cases hiddenF refresh mt0 root hashes s f with hc | ⟨r', hc, _⟩ | ⟨d, _, hc⟩
    <;> rw [hc]
  · exact ⟨rfl, rfl, Iff.rfl⟩
  · refine ⟨rfl, rfl, ?_⟩
    simp only [List.mem_append, List.mem_singleton]
    constructor
    · rintro (h | rfl)
      · exact h
      · exact absurd rfl hne
    · exact fun h => Or.inl h
  · refine ⟨insertA_lookupk_ne _ _ _ _ (fun h => hne h.symm),
      insertA_hasKey_ne _ _ _ _ (fun h => hne h.symm), ?_⟩
    simp only [List.mem_append, List.mem_singleton]
    constructor
    · rintro (h | rfl)
      · exact h
      · exact absurd rfl hne
    · exact fun h => Or.inl h

theorem cfold_write_mono (hiddenF refresh : Bool) (mt0 : Nat) (root : String)
    (hashes : List (String × HashResult)) (fs : List FileEntry) :
    ∀ s : LoopSt, s.write = true →
      (fs.foldl (createStep hiddenF refresh mt0 root hashes) s).write = true := by
  induction fs with
  | nil => intro s h; exact h
  | cons g rest ih =>
    intro s h
    rw [List.foldl_cons]
    exact ih _ (createStep_write_mono hiddenF refresh mt0 root hashes s g h)

theorem cfold_reports_sub (hiddenF refresh : Bool) (mt0 : Nat) (root : String)
    (hashes : List (String × HashResult)) (fs : List FileEntry) :
    ∀ (s : LoopSt) (r : Report), r ∈ s.reports →
      r ∈ (fs.foldl (createStep hiddenF refresh mt0 root hashes) s).reports := by
  induction fs with
  | nil => intro s r h; exact h
  | cons g rest ih =>
    intro s r h
    rw [List.foldl_cons]
    exact ih _ r (createStep_reports_sub hiddenF refresh mt0 root hashes s g r h)

theorem cfold_hasKey_mono (hiddenF refresh : Bool) (mt0 : Nat) (root : String)
    (hashes : List (String × HashResult)) (fs : List FileEntry) :
    ∀ (s : LoopSt) (n : String), hasKey s.sums n = true →
      hasKey (fs.foldl (createStep hiddenF refresh mt0 root hashes) s).sums n = true := by
  induction fs with
  | nil => intro s n h; exact h
  | cons g rest ih =>
    intro s n h
    rw [List.foldl_cons]
    exact ih _ n (createStep_hasKey_mono hiddenF refresh mt0 root hashes s g n h)

/-- If the `write` flag is still clear after the loop, no `+` line was
printed during it. -/
theorem cfold_added_of_write_false (hiddenF refresh : Bool) (mt0 : Nat) (root : String)
    (hashes : List (String × HashResult)) (fs : List FileEntry) :
    ∀ (s : LoopSt) (p : String),
      (fs.foldl (createStep hiddenF refresh mt0 root hashes) s).write = false →
      Report.added p ∈ (fs.foldl (createStep hiddenF refresh mt0 root hashes) s).reports →
      Report.added p ∈ s.reports := by
  induction fs with
  | nil => intro s p _ h; exact h
  | cons g rest ih =>
    intro s p hw h
    rw [List.foldl_cons] at hw h
    have hsw : (createStep hiddenF refresh mt0 root hashes s g).write = false := by
      cases hb : (createStep hiddenF refresh mt0 root hashes s g).write
      · rfl
      · rw [cfold_write_mono hiddenF refresh mt0 root hashes rest _ hb] at hw
        exact absurd hw (by simp)
    have h1 := ih _ p hw h
    rcases createStep_added hiddenF refresh mt0 root hashes s g p h1 with h2 | h2
    · exact h2
    · rw [h2] at hsw; exact absurd hsw (by simp)

/-- Frame rule for the whole loop: files with other names do not disturb what
the loop tracks about `n`. -/
theorem cfold_frame (hiddenF refresh : Bool) (mt0 : Nat) (root : String)
    (hashes : List (String × HashResult)) (fs : List FileEntry)
    (n : String) (hns : ∀ g ∈ fs, g.name ≠ n) :
    ∀ s : LoopSt,
      lookupk (fs.foldl (createStep hiddenF refresh mt0 root hashes) s).sums n
          = lookupk s.sums n ∧
      hasKey (fs.foldl (createStep hiddenF refresh mt0 root hashes) s).sums n
          = hasKey s.sums n ∧
      (n ∈ (fs.foldl (createStep hiddenF refresh mt0 root hashes) s).hashed ↔
        n ∈ s.hashed) := by
  induction fs with
  | nil => intro s; exact ⟨rfl, rfl, Iff.rfl⟩
  | cons g rest ih =>
    intro s
    rw [List.foldl_cons]
    have hstep := createStep_frame hiddenF refresh mt0 root hashes s g n
      (hns g (List.mem_cons_self g rest))
    have hrest := ih (fun g' hg' => hns g' (List.mem_cons_of_mem g hg'))
      (createStep hiddenF refresh mt0 root hashes s g)
    exact ⟨hrest.1.trans hstep.1, hrest.2.1.trans hstep.2.1,
      hrest.2.2.trans hstep.2.2⟩

/-- Refresh mode, non-hidden, non-excluded file: the staleness test alone
decides whether `get_checksum` runs; a stale-skipped file leaves the loop
state untouched. -/
theorem createStep_refresh_hit (hiddenF : Bool) (mt0 : Nat) (root : String)
    (hashes : List (String × HashResult)) (s : LoopSt) (f : FileEntry)
    (hh : (!hiddenF && f.hidden) = false)
    (he : is_excluded f.name EXCLUDED_FILES = false) :
    (¬(hasKey s.sums f.name = true ∧ f.mtime ≤ mt0) →
      f.name ∈ (createStep hiddenF true mt0 root hashes s f).hashed) ∧
    ((hasKey s.sums f.name = true ∧ f.mtime ≤ mt0) →
      createStep hiddenF true mt0 root hashes s f = s) := by
  have hc1 : ((!true && hasKey s.sums f.name) || (!hiddenF && f.hidden)
      || is_excluded f.name EXCLUDED_FILES) = false := by
    simp [hh, he]
  constructor
  · intro hnotskip
    have hc2 : (true && decide (f.mtime ≤ mt0) && hasKey s.sums f.name) = false := by
      by_cases hm : f.mtime ≤ mt0
      · have hk : hasKey s.sums f.name = false := by
          cases hb : hasKey s.sums f.name
          · rfl
          · exact absurd ⟨hb, hm⟩ hnotskip
        simp [hk]
      · simp [hm]
    unfold createStep
    rw [if_neg (by rw [hc1]; exact Bool.false_ne_true),
      if_neg (by rw [hc2]; exact Bool.false_ne_true)]
    cases hd : hashLookup hashes f.name <;> simp
  · rintro ⟨hk, hm⟩
    unfold createStep
    rw [if_neg (by rw [hc1]; exact Bool.false_ne_true), if_pos (by simp [hk, hm])]

/-- A file that reaches the hashing step and has vanished: a `?` report is
printed and nothing else changes. -/
theorem createStep_vanished_hit (hiddenF refresh : Bool) (mt0 : Nat) (root : String)
    (hashes : List (String × HashResult)) (s : LoopSt) (f : FileEntry)
    (h1 : ((!refresh && hasKey s.sums f.name) || (!hiddenF && f.hidden)
      || is_excluded f.name EXCLUDED_FILES) = false)
    (h2 : (refresh && decide (f.mtime ≤ mt0) && hasKey s.sums f.name) = false)
    (hv : hashLookup hashes f.name = HashResult.vanished) :
    createStep hiddenF refresh mt0 root hashes s f =
      { s with reports := s.reports ++ [Report.missing (pjoin root f.name)],
               hashed := s.hashed ++ [f.name] } := by
  unfold createStep
  rw [if_neg (by rw [h1]; exact Bool.false_ne_true),
    if_neg (by rw [h2]; exact Bool.false_ne_true), hv]

/-- Splitting a listing with no duplicate names around a member. -/
theorem nodup_split (l1 l2 : List FileEntry) (f : FileEntry)
    (hnd : (((l1 ++ f :: l2).map FileEntry.name)).Nodup) :
    (∀ g ∈ l1, g.name ≠ f.name) ∧ (∀ g ∈ l2, g.name ≠ f.name) := by
  rw [List.map_append, List.map_cons, List.nodup_append] at hnd
  obtain ⟨h1, h2, hdisj⟩ := hnd
  constructor
  · intro g hg hne
    exact hdisj (List.mem_map_of_mem FileEntry.name hg)
      (by rw [hne]; exact List.mem_cons_self _ _)
  · intro g hg hne
    rw [List.nodup_cons] at h2
    exact h2.1 (hne ▸ List.mem_map_of_mem FileEntry.name hg)

/-- Successful manifest load in the create branch. -/
theorem createLoad_eq (st : DirSt) (m0 : List (String × String))
    (hsum : st.sumIsFile = true) (hread : st.sumReadOk = true)
    (hparse : read_sumfile st.sumContent st.onDisk = some m0) :
    createLoad false st = some (m0, st.sumMtime) := by
  simp [createLoad, hsum, hread, hparse]

/-- How `createDir`'s outputs relate to the loop result, for any write
outcome. -/
theorem createDir_fields (hiddenF reset refresh : Bool) (st : DirSt)
    (m0 : List (String × String)) (mt0 : Nat)
    (hload : createLoad reset st = some (m0, mt0)) :
    (createDir hiddenF reset refresh st).finalSums =
      (st.files.foldl (createStep hiddenF refresh mt0 st.dirPath st.hashes)
        ⟨m0, false, [], []⟩).sums ∧
    (createDir hiddenF reset refresh st).hashedNames =
      (st.files.foldl (createStep hiddenF refresh mt0 st.dirPath st.hashes)
        ⟨m0, false, [], []⟩).hashed ∧
    (createDir hiddenF reset refresh st).didWrite =
      (st.files.foldl (createStep hiddenF refresh mt0 st.dirPath st.hashes)
        ⟨m0, false, [], []⟩).write ∧
    (∀ r ∈ (st.files.foldl (createStep hiddenF refresh mt0 st.dirPath st.hashes)
        ⟨m0, false, [], []⟩).reports, r ∈ (createDir hiddenF reset refresh st).reports) := by
  simp only [createDir, hload]
  split
  · split
    · exact ⟨rfl, rfl, rfl, fun r hr => hr⟩
    · exact ⟨rfl, rfl, rfl, fun r hr => List.mem_append_left _ hr⟩
  · exact ⟨rfl, rfl, rfl, fun r hr => hr⟩

/-- Staleness behaviour of the refresh loop around the position of one
non-hidden, non-excluded file with a unique name. -/
theorem cfold_refresh_spec (hiddenF : Bool) (mt0 : Nat) (root : String)
    (hashes : List (String × HashResult)) (l1 l2 : List FileEntry) (f : FileEntry)
    (m0 : List (String × String))
    (hn1 : ∀ g ∈ l1, g.name ≠ f.name) (hn2 : ∀ g ∈ l2, g.name ≠ f.name)
    (hh : (!hiddenF && f.hidden) = false)
    (he : is_excluded f.name EXCLUDED_FILES = false) :
    (f.name ∈ ((l1 ++ f :: l2).foldl (createStep hiddenF true mt0 root hashes)
        ⟨m0, false, [], []⟩).hashed ↔
      (hasKey m0 f.name = false ∨ mt0 < f.mtime)) ∧
    (hasKey m0 f.name = true → f.mtime ≤ mt0 →
      lookupk ((l1 ++ f :: l2).foldl (createStep hiddenF true mt0 root hashes)
        ⟨m0, false, [], []⟩).sums f.name = lookupk m0 f.name) := by
  rw [List.foldl_append, List.foldl_cons]
  have hframe1 := cfold_frame hiddenF true mt0 root hashes l1 f.name hn1 ⟨m0, false, [], []⟩
  have hit := createStep_refresh_hit hiddenF mt0 root hashes
    (l1.foldl (createStep hiddenF true mt0 root hashes) ⟨m0, false, [], []⟩) f hh he
  by_cases hcase : hasKey m0 f.name = true ∧ f.mtime ≤ mt0
  · have hk1 : hasKey (l1.foldl (createStep hiddenF true mt0 root hashes)
        ⟨m0, false, [], []⟩).sums f.name = true := by
      rw [hframe1.2.1]; exact hcase.1
    have hskip := hit.2 ⟨hk1, hcase.2⟩
    rw [hskip]
    have hframe2 := cfold_frame hiddenF true mt0 root hashes l2 f.name hn2
      (l1.foldl (createStep hiddenF true mt0 root hashes) ⟨m0, false, [], []⟩)
    constructor
    · rw [hframe2.2.2, hframe1.2.2]
      simp only [List.not_mem_nil, false_iff]
      push_neg
      constructor
      · intro hcontra; rw [hcontra] at hcase; exact absurd hcase.1 (by simp)
      · exact hcase.2
    · intro _ _
      rw [hframe2.1, hframe1.1]
  · have hk1 : ¬(hasKey (l1.foldl (createStep hiddenF true mt0 root hashes)
        ⟨m0, false, [], []⟩).sums f.name = true ∧ f.mtime ≤ mt0) := by
      rw [hframe1.2.1]; exact hcase
    have hmem := hit.1 hk1
    have hframe2 := cfold_frame hiddenF true mt0 root hashes l2 f.name hn2
      (createStep hiddenF true mt0 root hashes
        (l1.foldl (createStep hiddenF true mt0 root hashes) ⟨m0, false, [], []⟩) f)
    constructor
    · rw [hframe2.2.2]
      constructor
      · intro _
        rcases Decidable.not_and_iff_or_not.mp hcase with hA | hB
        · exact Or.inl (Bool.eq_false_iff.mpr hA)
        · exact Or.inr (Nat.not_le.mp hB)
      · intro _; exact hmem
    · intro hA hB; exact absurd ⟨hA, hB⟩ hcase

/-- C1: Refresh staleness law — with an existing, readable, parseable
manifest and a duplicate-free listing, a non-hidden, non-excluded file's
digest is recomputed under `--refresh` exactly when the file is absent from
the loaded manifest or its modification time is strictly newer than the
manifest file's; a present entry with an equal-or-older modification time is
skipped and its stored digest survives into the resulting mapping. -/
theorem C1_refresh_staleness (st : DirSt) (hiddenF : Bool)
    (m0 : List (String × String))
    (hsum : st.sumIsFile = true) (hread : st.sumReadOk = true)
    (hparse : read_sumfile st.sumContent st.onDisk = some m0)
    (hnd : (st.files.map FileEntry.name).Nodup)
    (f : FileEntry) (hf : f ∈ st.files)
    (hh : (!hiddenF && f.hidden) = false)
    (he : is_excluded f.name EXCLUDED_FILES = false) :
    (f.name ∈ (createDir hiddenF false true st).hashedNames ↔
      (hasKey m0 f.name = false ∨ st.sumMtime < f.mtime)) ∧
    (hasKey m0 f.name = true → f.mtime ≤ st.sumMtime →
      lookupk (createDir hiddenF false true st).finalSums f.name = lookupk m0 f.name) := by
  obtain ⟨l1, l2, heq⟩ := List.append_of_mem hf
  obtain ⟨hn1, hn2⟩ := nodup_split l1 l2 f (heq ▸ hnd)
  have hload := createLoad_eq st m0 hsum hread hparse
  obtain ⟨hsums, hhashed, _, _⟩ :=
    createDir_fields hiddenF false true st m0 st.sumMtime hload
  have hspec := cfold_refresh_spec hiddenF st.sumMtime st.dirPath st.hashes
    l1 l2 f m0 hn1 hn2 hh he
  rw [hsums, hhashed, heq]
  exact hspec

/-- Witness for C1 at the fixture `stC1`, file `a`: present in the manifest
with an equal modification time, hence not recomputed and its stored digest
kept. -/
theorem C1_witness :
    (read_sumfile stC1.sumContent stC1.onDisk = some [("a", DA)] ∧
      (stC1.files.map FileEntry.name).Nodup) ∧
    (("a" ∈ (createDir false false true stC1).hashedNames ↔
        (hasKey [("a", DA)] "a" = false ∨ stC1.sumMtime < 1)) ∧
      (hasKey [("a", DA)] "a" = true → 1 ≤ stC1.sumMtime →
        lookupk (createDir false false true stC1).finalSums "a" =
          lookupk [("a", DA)] "a")) :=
  ⟨⟨by decide, by decide⟩,
    C1_refresh_staleness stC1 false [("a", DA)] rfl rfl (by decide) (by decide)
      ⟨"a", false, 1⟩ (by decide) (by decide) (by decide)⟩

/-- C2 (amended): a file that reaches the hashing step and has vanished gets
a `?` report, and the resulting mapping at its name is exactly the loaded
manifest's entry — kept when present, absent when absent (never newly
added). -/
theorem C2_vanished_kept (st : DirSt) (hiddenF reset refresh : Bool)
    (m0 : List (String × String)) (mt0 : Nat)
    (hload : createLoad reset st = some (m0, mt0))
    (hnd : (st.files.map FileEntry.name).Nodup)
    (f : FileEntry) (hf : f ∈ st.files)
    (hv : hashLookup st.hashes f.name = HashResult.vanished)
    (h1 : ((!refresh && hasKey m0 f.name) || (!hiddenF && f.hidden)
      || is_excluded f.name EXCLUDED_FILES) = false)
    (h2 : (refresh && decide (f.mtime ≤ mt0) && hasKey m0 f.name) = false) :
    Report.missing (pjoin st.dirPath f.name) ∈ (createDir hiddenF reset refresh st).reports ∧
    lookupk (createDir hiddenF reset refresh st).finalSums f.name = lookupk m0 f.name := by
  obtain ⟨l1, l2, heq⟩ := List.append_of_mem hf
  obtain ⟨hn1, hn2⟩ := nodup_split l1 l2 f (heq ▸ hnd)
  obtain ⟨hsums, _, _, hreps⟩ := createDir_fields hiddenF reset refresh st m0 mt0 hload
  rw [heq] at hsums hreps
  rw [List.foldl_append, List.foldl_cons] at hsums hreps
  have hframe1 := cfold_frame hiddenF refresh mt0 st.dirPath st.hashes l1 f.name hn1
    ⟨m0, false, [], []⟩
  have h1' : ((!refresh && hasKey (l1.foldl (createStep hiddenF refresh mt0 st.dirPath
      st.hashes) ⟨m0, false, [], []⟩).sums f.name) || (!hiddenF && f.hidden)
      || is_excluded f.name EXCLUDED_FILES) = false := by
    rw [hframe1.2.1]; exact h1
  have h2' : (refresh && decide (f.mtime ≤ mt0) && hasKey (l1.foldl (createStep hiddenF
      refresh mt0 st.dirPath st.hashes) ⟨m0, false, [], []⟩).sums f.name) = false := by
    rw [hframe1.2.1]; exact h2
  have hstep := createStep_vanished_hit hiddenF refresh mt0 st.dirPath st.hashes
    (l1.foldl (createStep hiddenF refresh mt0 st.dirPath st.hashes) ⟨m0, false, [], []⟩)
    f h1' h2' hv
  have hframe2 := cfold_frame hiddenF refresh mt0 st.dirPath st.hashes l2 f.name hn2
    (createStep hiddenF refresh mt0 st.dirPath st.hashes
      (l1.foldl (createStep hiddenF refresh mt0 st.dirPath st.hashes) ⟨m0, false, [], []⟩) f)
  constructor
  · apply hreps
    apply cfold_reports_sub
    rw [hstep]
    exact List.mem_append_right _ (List.mem_singleton.mpr rfl)
  · rw [hsums, hframe2.1, hstep, hframe1.1]

/-- C2 counterexample: in the fixture `stC2`, file `a` has a loaded manifest
entry and vanishes before hashing; the claim says its entry is omitted from
the resulting manifest, but the written manifest still contains it. -/
theorem C2_counterexample :
    hashLookup stC2.hashes "a" = HashResult.vanished ∧
    read_sumfile stC2.sumContent stC2.onDisk = some [("a", DA)] ∧
    (createDir false false true stC2).written = some [("a", DA), ("b", DB)] ∧
    Report.missing "r/a" ∈ (createDir false false true stC2).reports := by
  decide

/-- Witness for the amended C2 at `stC2`, file `a`. -/
theorem C2_witness :
    createLoad false stC2 = some ([("a", DA)], 1) ∧
    (Report.missing "r/a" ∈ (createDir false false true stC2).reports ∧
      lookupk (createDir false false true stC2).finalSums "a" =
        lookupk [("a", DA)] "a") :=
  ⟨by decide,
    C2_vanished_kept stC2 false false true [("a", DA)] 1 (by decide) (by decide)
      ⟨"a", false, 5⟩ (by decide) (by decide) (by decide) (by decide)⟩

/-- C3: the verify branch's comparison runs even when `get_checksum` raised,
reading `checksum_new` from the previous iteration.  At `stC3` the vanished
file `b` is reported missing AND `X`-flagged against file `a`'s digest; at
`stC3b`, where the first entry's hash fails, the comparison reads the
never-assigned local and the run dies with `NameError`.  The claim's "file
vanished yields only a missing report, and the run does not abort" is the
spec's intent; the code violates it. -/
theorem C3_verify_stale_comparison :
    verifyDir stC3 ⟨[], none, false⟩ =
      ⟨[Report.missing "r/b", Report.mismatch "r/b"], some DA, false⟩ ∧
    (verifyDir stC3b ⟨[], none, false⟩).crashed = true := by
  decide

/-- C10: with verify selected, the `--reset` / `--refresh` flags influence
neither the reports nor the resulting filesystem states of the whole walk,
and verify leaves every directory state unchanged. -/
theorem C10_verify_ignores_reset_refresh (dirs : List DirSt) (cn0 : Option String)
    (hiddenF r1 f1 r2 f2 : Bool) :
    mainRun false true r1 f1 hiddenF dirs cn0 = mainRun false true r2 f2 hiddenF dirs cn0 ∧
    (mainRun false true r1 f1 hiddenF dirs cn0).states = dirs := by
  constructor
  · rfl
  · show (dirs.foldl (mainStep false true r1 f1 hiddenF) ⟨[], [], cn0, false⟩).states = dirs
    have aux : ∀ (ds : List DirSt) (acc : MainOut),
        (ds.foldl (mainStep false true r1 f1 hiddenF) acc).states = acc.states ++ ds := by
      intro ds
      induction ds with
      | nil => intro acc; simp
      | cons st rest ih =>
        intro acc
        rw [List.foldl_cons, ih]
        have hstep : (mainStep false true r1 f1 hiddenF acc st).states = acc.states ++ [st] := by
          unfold mainStep
          split
          · rfl
          · split
            · rfl
            · rfl
        rw [hstep]
        simp
    rw [aux]
    rfl

/-- Excluded names are invisible to the create loop: never hashed, and the
dict's entry state for them never changes. -/
theorem cfold_excluded (hiddenF refresh : Bool) (mt0 : Nat) (root : String)
    (hashes : List (String × HashResult)) (n : String)
    (hex : is_excluded n EXCLUDED_FILES = true) (fs : List FileEntry) :
    ∀ s : LoopSt,
      hasKey (fs.foldl (createStep hiddenF refresh mt0 root hashes) s).sums n
        = hasKey s.sums n ∧
      (n ∈ (fs.foldl (createStep hiddenF refresh mt0 root hashes) s).hashed ↔
        n ∈ s.hashed) := by
  induction fs with
  | nil => intro s; exact ⟨rfl, Iff.rfl⟩
  | cons g rest ih =>
    intro s
    rw [List.foldl_cons]
    by_cases hg : g.name = n
    · have hstep := createStep_excluded hiddenF refresh mt0 root hashes s g (hg ▸ hex)
      rw [hstep]
      exact ih s
    · have hstep := createStep_frame hiddenF refresh mt0 root hashes s g n hg
      have hrest := ih (createStep hiddenF refresh mt0 root hashes s g)
      exact ⟨hrest.1.trans hstep.2.1, hrest.2.trans hstep.2.2⟩

/-- C9 (amended): in the create/refresh/reset pass, a name matching a
file-exclusion pattern is never handed to `get_checksum`, and the resulting
mapping has an entry under it exactly when the loaded manifest already did
(so such an entry can only be carried forward, never newly created). -/
theorem C9_exclusion (st : DirSt) (hiddenF reset refresh : Bool) (n : String)
    (hex : is_excluded n EXCLUDED_FILES = true) :
    n ∉ (createDir hiddenF reset refresh st).hashedNames ∧
    (∀ m0 mt0, createLoad reset st = some (m0, mt0) →
      hasKey (createDir hiddenF reset refresh st).finalSums n = hasKey m0 n) := by
  cases hload : createLoad reset st with
  | none =>
    constructor
    · simp [createDir, hload]
    · intro m0 mt0 h
      exact absurd h (by simp)
  | some pair =>
    obtain ⟨m0, mt0⟩ := pair
    obtain ⟨hsums, hhashed, _, _⟩ := createDir_fields hiddenF reset refresh st m0 mt0 hload
    have hinv := cfold_excluded hiddenF refresh mt0 st.dirPath st.hashes n hex st.files
      ⟨m0, false, [], []⟩
    constructor
    · rw [hhashed]
      intro hmem
      exact absurd (hinv.2.mp hmem) (List.not_mem_nil n)
    · intro m0' mt0' h
      obtain ⟨rfl, rfl⟩ : m0 = m0' ∧ mt0 = mt0' := by
        have := Option.some.inj h
        exact ⟨congrArg Prod.fst this, congrArg Prod.snd this⟩
      rw [hsums]
      exact hinv.1

/-- C9 counterexample: the excluded name `desktop.ini` has an entry in the
loaded manifest of `stC9`; the written manifest still stores it, refuting
"no entry for an excluded name is ever stored into any written manifest". -/
theorem C9_counterexample :
    is_excluded "desktop.ini" EXCLUDED_FILES = true ∧
    (createDir false false false stC9).written =
      some [("desktop.ini", DA), ("b", DB)] := by
  decide

/-- Witness for the amended C9 at `stC9`. -/
theorem C9_witness :
    is_excluded "desktop.ini" EXCLUDED_FILES = true ∧
    ("desktop.ini" ∉ (createDir false false false stC9).hashedNames ∧
      (∀ m0 mt0, createLoad false stC9 = some (m0, mt0) →
        hasKey (createDir false false false stC9).finalSums "desktop.ini" =
          hasKey m0 "desktop.ini")) :=
  ⟨by decide, C9_exclusion stC9 false false false "desktop.ini" (by decide)⟩

/-- C6 (amended): when an attribute step of `write_sumfile` fails, the write
raises — but with `FileNotFoundError` or `IOError`, never `PermissionError`
(which is the only error the caller catches); a failure while clearing the
attribute leaves the old content untouched, and a failure while re-protecting
happens after the new content is already flushed and keeps it intact. -/
theorem C6_attr_failure (env : AttrEnv) (st : AttrFS) (data : List (String × String)) :
    ((st.sumExists = true ∧ (env.getOk1 = false ∨ env.setOk1 = false)) →
      ((write_sumfile env st data).2 ≠ none ∧
        (write_sumfile env st data).2 ≠ some PyErr.permission) ∧
      (write_sumfile env st data).1.content = st.content) ∧
    (((st.sumExists = true → env.getOk1 = true ∧ env.setOk1 = true) ∧
        env.openOk = true ∧ (env.getOk2 = false ∨ env.setOk2 = false)) →
      ((write_sumfile env st data).2 ≠ none ∧
        (write_sumfile env st data).2 ≠ some PyErr.permission) ∧
      (write_sumfile env st data).1.content = serializeManifest data) := by
  obtain ⟨g1, s1, o, g2, s2⟩ := env
  obtain ⟨se, c, a⟩ := st
  cases se <;> cases g1 <;> cases s1 <;> cases o <;> cases g2 <;> cases s2 <;>
    simp [write_sumfile]

/-- Witness for the amended C6: all calls succeed except the final
`SetFileAttributesW`; the write fails with a non-permission error and the
new manifest content is already on disk. -/
theorem C6_witness :
    ((write_sumfile envC6 fsC6 [("x", DA)]).2 ≠ none ∧
      (write_sumfile envC6 fsC6 [("x", DA)]).2 ≠ some PyErr.permission) ∧
    (write_sumfile envC6 fsC6 [("x", DA)]).1.content = serializeManifest [("x", DA)] :=
  (C6_attr_failure envC6 fsC6 [("x", DA)]).2 ⟨by decide, by decide, by decide⟩

/-- C6 counterexample: at this input the write fails because of the
protective-attribute step, but with `IOError`, not a permission error — the
claim's "the whole write operation fails with a permission error" is false
of the code. -/
theorem C6_counterexample :
    (write_sumfile envC6 fsC6 [("y", DB)]).2 = some PyErr.ioErr ∧
    PyErr.ioErr ≠ PyErr.permission ∧
    (write_sumfile envC6 fsC6 [("y", DB)]).1.content = serializeManifest [("y", DB)] := by
  decide

/-! ### Manifest parsing lemmas -/

/-- One rejected line poisons the whole parse: `ValueError`, no partial
mapping. -/
theorem read_lines_badLine (ex : List String) (ls : List (List Char)) :
    ∀ acc, (∃ l ∈ ls, badLine l = true) → read_sumfile_lines ex ls acc = none := by
  induction ls with
  | nil =>
    intro acc h
    rcases h with ⟨l, hl, _⟩
    exact absurd hl (List.not_mem_nil l)
  | cons l0 ls ih =>
    intro acc h
    rcases h with ⟨l, hl, hbad⟩
    rcases List.mem_cons.mp hl with rfl | hl
    · simp only [read_sumfile_lines]
      unfold badLine at hbad
      split
      · next heq => rw [heq] at hbad; simp at hbad
      · next c cs heq =>
        rw [heq] at hbad
        simp only [Bool.and_eq_true, Bool.not_eq_true', Option.isNone_iff_eq_none] at hbad
        obtain ⟨⟨hc, hg⟩, hb⟩ := hbad
        rw [if_neg (by rw [hc]; exact Bool.false_ne_true), hg, hb]
        rfl
    · simp only [read_sumfile_lines]
      split
      · exact ih acc ⟨l, hl, hbad⟩
      · next c cs heq =>
        by_cases hc : (c == '#' || c == ';') = true
        · rw [if_pos hc]; exact ih acc ⟨l, hl, hbad⟩
        · rw [if_neg hc]
          cases hm : gnuMatch (c :: cs) <|> bsdMatch (c :: cs) with
          | none => rfl
          | some p =>
            obtain ⟨fn, ck⟩ := p
            change (if ex.contains fn = true then
                read_sumfile_lines ex ls (insertA acc fn ck)
              else read_sumfile_lines ex ls acc) = none
            by_cases he : ex.contains fn = true
            · rw [if_pos he]; exact ih _ ⟨l, hl, hbad⟩
            · rw [if_neg he]; exact ih acc ⟨l, hl, hbad⟩

/-- C4: Fail-closed manifest parsing.  A manifest whose text contains a
non-empty, non-comment line matching neither recognized pattern parses to
`ValueError` for any on-disk state, with no partial mapping; the create
branch then reports the sumfile and skips the directory without hashing or
writing anything, and the verify branch reports that manifest and checks no
entry from it. -/
theorem C4_fail_closed (content : List Char)
    (hbad : ∃ l ∈ splitLines content, badLine l = true) :
    (∀ ex, read_sumfile content ex = none) ∧
    (∀ st : DirSt, st.sumIsFile = true → st.sumReadOk = true → st.sumContent = content →
      ∀ hiddenF refresh, createDir hiddenF false refresh st =
        ⟨[Report.denied (pjoin st.dirPath SUMFILE_NAME)], [], false, [], none, st⟩) ∧
    (∀ (st : DirSt) (v : VerifySt) (f : FileEntry), v.crashed = false →
      endsWithStr f.name ".sha256" = true → st.vIsFile.contains f.name = true →
      st.vReadOk.contains f.name = true → contentLookup st.vContent f.name = content →
      verifyFileStep st v f =
        { v with reports := v.reports ++ [Report.denied (pjoin st.dirPath f.name)] }) := by
  have hnone : ∀ ex, read_sumfile content ex = none := fun ex =>
    read_lines_badLine ex (splitLines content) [] hbad
  refine ⟨hnone, ?_, ?_⟩
  · intro st h1 h2 h3 hiddenF refresh
    have hload : createLoad false st = none := by
      simp [createLoad, h1, h2, h3, hnone st.onDisk]
    simp [createDir, hload]
  · intro st v f hcr hends hisf hreadok hcont
    unfold verifyFileStep
    rw [if_neg (by rw [hcr]; exact Bool.false_ne_true),
      if_neg (by rw [hends]; simp),
      if_neg (by rw [hisf]; simp),
      if_neg (by rw [hreadok]; simp),
      hcont, hnone st.onDisk]

/-- Witness for C4: the content `zz\n` has a line neither grammar accepts;
parsing fails closed. -/
theorem C4_witness :
    (∃ l ∈ splitLines ['z', 'z', '\n'], badLine l = true) ∧
    read_sumfile ['z', 'z', '\n'] ["x"] = none :=
  ⟨by decide, (C4_fail_closed ['z', 'z', '\n'] (by decide)).1 ["x"]⟩

theorem hasKey_eq_contains (m : List (String × String)) (k : String) :
    hasKey m k = (m.map Prod.fst).contains k := by
  have h1 : hasKey m k = true ↔ k ∈ m.map Prod.fst := by
    rw [hasKey_iff_exists]
    constructor
    · rintro ⟨v, hv⟩; exact List.mem_map.mpr ⟨(k, v), hv, rfl⟩
    · intro hm
      rcases List.mem_map.mp hm with ⟨p, hp, hpk⟩
      exact ⟨p.2, by rcases p with ⟨a, b⟩; cases hpk; exact hp⟩
  have h2 : (m.map Prod.fst).contains k = true ↔ k ∈ m.map Prod.fst := List.elem_iff
  cases hb : hasKey m k with
  | true => exact (h2.mpr (h1.mp hb)).symm
  | false =>
    cases hc : (m.map Prod.fst).contains k with
    | false => rfl
    | true => exact absurd (h1.mpr (h2.mp hc)) (by simp [hb])

theorem foldl_insPair_mem (es : List (String × String)) :
    ∀ acc p, p ∈ es.foldl insPair acc → p ∈ acc ∨ ∃ q ∈ es, q.1 = p.1 := by
  induction es with
  | nil => intro acc p h; exact Or.inl h
  | cons q es ih =>
    intro acc p h
    rw [List.foldl_cons] at h
    rcases ih _ p h with h1 | ⟨q', hq', he⟩
    · rcases insertA_mem acc q.1 q.2 p h1 with h2 | h2
      · exact Or.inl h2
      · exact Or.inr ⟨q, List.mem_cons_self q es, (congrArg Prod.fst h2).symm⟩
    · exact Or.inr ⟨q', List.mem_cons_of_mem _ hq', he⟩

theorem foldl_insPair_keys (es : List (String × String)) :
    ∀ acc, (es.foldl insPair acc).map Prod.fst =
      keysAfter (acc.map Prod.fst) (es.map Prod.fst) := by
  induction es with
  | nil => intro acc; rfl
  | cons q es ih =>
    intro acc
    rw [List.foldl_cons, List.map_cons]
    show (es.foldl insPair (insPair acc q)).map Prod.fst =
      keysAfter (acc.map Prod.fst) (q.1 :: es.map Prod.fst)
    rw [ih (insPair acc q)]
    simp only [keysAfter]
    rw [show (insPair acc q).map Prod.fst =
      if hasKey acc q.1 then acc.map Prod.fst else acc.map Prod.fst ++ [q.1] from
      insertA_map_fst acc q.1 q.2]
    rw [hasKey_eq_contains]
    by_cases hc : (acc.map Prod.fst).contains q.1 = true
    · rw [if_pos hc, if_pos hc]
    · rw [if_neg hc, if_neg hc]

/-- Every pair `keptLines` keeps passed the existence filter. -/
theorem keptLines_mem (ex : List String) (ls : List (List Char)) :
    ∀ es, keptLines ex ls = some es → ∀ q ∈ es, ex.contains q.1 = true := by
  induction ls with
  | nil =>
    intro es h q hq
    obtain rfl := Option.some.inj h
    exact absurd hq (List.not_mem_nil q)
  | cons l0 ls ih =>
    intro es
    simp only [keptLines]
    split
    · intro h; exact ih es h
    · next c cs heq =>
      by_cases hc : (c == '#' || c == ';') = true
      · rw [if_pos hc]; intro h; exact ih es h
      · rw [if_neg hc]
        cases hm : gnuMatch (c :: cs) <|> bsdMatch (c :: cs) with
        | none => intro h; exact absurd h (by simp)
        | some p =>
          obtain ⟨fn, ck⟩ := p
          change (if ex.contains fn = true then
              (keptLines ex ls).map (fun r => (fn, ck) :: r)
            else keptLines ex ls) = some es → _
          by_cases he : ex.contains fn = true
          · rw [if_pos he]
            intro h q hq
            cases hk : keptLines ex ls with
            | none => rw [hk] at h; exact absurd h (by simp)
            | some es' =>
              rw [hk] at h
              simp only [Option.map_some'] at h
              obtain rfl := Option.some.inj h
              rcases List.mem_cons.mp hq with rfl | hq'
              · exact he
              · exact ih es' hk q hq'
          · rw [if_neg he]; intro h; exact ih es h

/-- `read_sumfile_lines` is the dict fold of the kept line entries. -/
theorem read_lines_eq_keptLines (ex : List String) (ls : List (List Char)) :
    ∀ acc, read_sumfile_lines ex ls acc =
      (keptLines ex ls).map (fun es => es.foldl insPair acc) := by
  induction ls with
  | nil => intro acc; rfl
  | cons l0 ls ih =>
    intro acc
    simp only [read_sumfile_lines, keptLines]
    split
    · exact ih acc
    · next c cs heq =>
      by_cases hc : (c == '#' || c == ';') = true
      · simp only [if_pos hc]; exact ih acc
      · simp only [if_neg hc]
        cases hm : gnuMatch (c :: cs) <|> bsdMatch (c :: cs) with
        | none => rfl
        | some p =>
          obtain ⟨fn, ck⟩ := p
          change (if ex.contains fn = true then
              read_sumfile_lines ex ls (insertA acc fn ck)
            else read_sumfile_lines ex ls acc) =
            ((if ex.contains fn = true then
                (keptLines ex ls).map (fun r => (fn, ck) :: r)
              else keptLines ex ls)).map (fun es => es.foldl insPair acc)
          by_cases he : ex.contains fn = true
          · simp only [if_pos he]
            rw [ih (insertA acc fn ck)]
            cases hk : keptLines ex ls with
            | none => rfl
            | some es => simp [List.foldl_cons, insPair]
          · simp only [if_neg he]; exact ih acc

/-- C5: Pruning law at load — every entry of a successfully loaded manifest
passed the on-disk existence filter, and the mapping's keys are the kept
lines' filenames in first-seen order. -/
theorem C5_pruning (content : List Char) (ex : List String)
    (m : List (String × String))
    (hread : read_sumfile content ex = some m) :
    (∀ p ∈ m, ex.contains p.1 = true) ∧
    (∃ kept, keptLines ex (splitLines content) = some kept ∧
      m.map Prod.fst = keysAfter [] (kept.map Prod.fst)) := by
  have hb := read_lines_eq_keptLines ex (splitLines content) []
  unfold read_sumfile at hread
  rw [hread] at hb
  cases hk : keptLines ex (splitLines content) with
  | none => rw [hk] at hb; exact absurd hb (by simp)
  | some kept =>
    rw [hk] at hb
    simp only [Option.map_some'] at hb
    obtain rfl : m = kept.foldl insPair [] := Option.some.inj hb
    constructor
    · intro p hp
      rcases foldl_insPair_mem kept [] p hp with h | ⟨q, hq, he⟩
      · exact absurd h (List.not_mem_nil p)
      · rw [← he]; exact keptLines_mem ex (splitLines content) kept hk q hq
    · exact ⟨kept, rfl, by rw [foldl_insPair_keys kept []]; rfl⟩

/-- Witness for C5: a manifest with a comment and three entries, one of which
(`gone`) no longer exists on disk. -/
theorem C5_witness :
    read_sumfile cC5 ["x", "y"] = some [("x", DA), ("y", DC)] ∧
    ((∀ p ∈ [("x", DA), ("y", DC)], (["x", "y"].contains p.1) = true) ∧
      (∃ kept, keptLines ["x", "y"] (splitLines cC5) = some kept ∧
        [("x", DA), ("y", DC)].map Prod.fst = keysAfter [] (kept.map Prod.fst))) :=
  ⟨by decide, C5_pruning cC5 ["x", "y"] [("x", DA), ("y", DC)] (by decide)⟩

/-! ### Round-trip lemmas -/

theorem isHexChar_not_space (c : Char) (h : isHexChar c = true) : isPySpace c = false := by
  cases hs : isPySpace c
  · rfl
  · exfalso
    unfold isPySpace at hs
    simp only [Bool.or_eq_true, beq_iff_eq] at hs
    rcases hs with ((((rfl | rfl) | rfl) | rfl) | rfl) | rfl <;> exact absurd h (by decide)

theorem isHexChar_not_comment (c : Char) (h : isHexChar c = true) :
    (c == '#' || c == ';') = false := by
  cases hb : (c == '#' || c == ';')
  · rfl
  · exfalso
    simp only [Bool.or_eq_true, beq_iff_eq] at hb
    rcases hb with rfl | rfl <;> exact absurd h (by decide)

theorem isHexChar_ne_newline (c : Char) (h : isHexChar c = true) : c ≠ '\n' := by
  intro he
  rw [he] at h
  exact absurd h (by decide)

theorem splitLines_append (xs r : List Char) (h : '\n' ∉ xs) :
    splitLines (xs ++ '\n' :: r) = xs :: splitLines r := by
  induction xs with
  | nil => simp [splitLines]
  | cons c cs ih =>
    have hc : c ≠ '\n' := fun hh => h (hh ▸ List.mem_cons_self c cs)
    have hmem : '\n' ∉ cs := fun hh => h (List.mem_cons_of_mem c hh)
    simp only [List.cons_append, splitLines]
    rw [if_neg (by simp [hc]), List.append_eq, ih hmem]

theorem splitLines_serialize (m : List (String × String))
    (h : ∀ p ∈ m, '\n' ∉ p.1.data ∧ '\n' ∉ p.2.data) :
    splitLines (serializeManifest m) = m.map gnuLine ++ [[]] := by
  induction m with
  | nil => rfl
  | cons p m' ih =>
    have hp := h p (List.mem_cons_self p m')
    have hnl : '\n' ∉ gnuLine p := by
      unfold gnuLine
      intro hmem
      rcases List.mem_append.mp hmem with h1 | h2
      · rcases List.mem_append.mp h1 with h1a | h1b
        · exact hp.2 h1a
        · simp at h1b
      · exact hp.1 h2
    show splitLines ((gnuLine p ++ ['\n']) ++ serializeManifest m') = _
    rw [List.append_assoc, List.singleton_append, splitLines_append _ _ hnl,
      ih (fun q hq => h q (List.mem_cons_of_mem p hq))]
    rfl

theorem pstrip_eq_self (l : List Char)
    (hh : ∀ c, l.head? = some c → isPySpace c = false)
    (hl : ∀ c, l.getLast? = some c → isPySpace c = false) :
    pstrip l = l := by
  unfold pstrip
  cases l with
  | nil => rfl
  | cons c cs =>
    have h1 : isPySpace c = false := hh c rfl
    rw [List.dropWhile_cons, if_neg (by simp [h1])]
    cases hr : (c :: cs).reverse with
    | nil => exact absurd hr (by simp)
    | cons d ds =>
      have h2 : isPySpace d = false := by
        apply hl
        rw [← List.head?_reverse, hr]
        rfl
      rw [List.dropWhile_cons, if_neg (by simp [h2]), ← hr, List.reverse_reverse]

/-- A line `f"{checksum}  {filename}"` with a 64-hex checksum and a
well-formed filename survives stripping and is parsed by the GNU pattern back
to the same pair. -/
theorem gnuLine_parse (fn ck : String) (hck : isHex64 ck = true)
    (hfn : wfName fn = true) :
    pstrip (gnuLine (fn, ck)) = gnuLine (fn, ck) ∧
    gnuMatch (gnuLine (fn, ck)) = some (fn, ck) := by
  obtain ⟨hlen, hhex⟩ : ck.data.length = 64 ∧ ck.data.all isHexChar = true := by
    unfold isHex64 at hck
    simp only [Bool.and_eq_true, beq_iff_eq] at hck
    exact hck
  obtain ⟨d0, ds0, hr⟩ : ∃ d0 ds0, fn.data.reverse = d0 :: ds0 := by
    cases hrr : fn.data.reverse with
    | nil => unfold wfName at hfn; rw [hrr] at hfn; exact absurd hfn (by simp)
    | cons d0 ds0 => exact ⟨d0, ds0, rfl⟩
  have hlast : isPySpace d0 = false ∧ fn.data.contains '\n' = false := by
    unfold wfName at hfn
    rw [hr] at hfn
    simp only [Bool.and_eq_true, Bool.not_eq_true'] at hfn
    exact ⟨hfn.2, hfn.1⟩
  have hfd : fn.data ≠ [] := by
    intro hd
    rw [hd] at hr
    exact absurd hr (by simp)
  obtain ⟨c0, cs0, hck0⟩ : ∃ c0 cs0, ck.data = c0 :: cs0 := by
    cases hcd : ck.data with
    | nil => rw [hcd] at hlen; exact absurd hlen (by simp)
    | cons c0 cs0 => exact ⟨c0, cs0, rfl⟩
  have hc0 : isHexChar c0 = true :=
    List.all_eq_true.mp hhex c0 (by rw [hck0]; exact List.mem_cons_self c0 cs0)
  obtain ⟨f1, fs, hfn0⟩ : ∃ f1 fs, fn.data = f1 :: fs := by
    cases hfe : fn.data with
    | nil => exact absurd hfe hfd
    | cons f1 fs => exact ⟨f1, fs, rfl⟩
  constructor
  · apply pstrip_eq_self
    · intro c hc
      unfold gnuLine at hc
      rw [List.append_assoc, hck0] at hc
      simp only [List.cons_append, List.head?_cons] at hc
      obtain rfl := Option.some.inj hc
      exact isHexChar_not_space c0 hc0
    · intro c hc
      unfold gnuLine at hc
      rw [List.getLast?_append] at hc
      rw [show fn.data.getLast? = some d0 from by rw [← List.head?_reverse, hr]; rfl] at hc
      obtain rfl := Option.some.inj hc
      exact hlast.1
  · unfold gnuMatch gnuLine
    rw [List.append_assoc]
    rw [List.take_left' hlen, List.drop_left' hlen]
    simp only [hlen, hhex, Bool.and_self, if_true]
    rw [hfn0]
    simp only [List.cons_append, List.nil_append]
    rw [if_pos (by decide)]
    rw [← hfn0]
    rfl

/-- How the reader consumes one line that strips to a non-comment,
pattern-matched `(filename, checksum)`. -/
theorem read_lines_cons_parsed (ex : List String) (l : List Char)
    (ls : List (List Char)) (acc : List (String × String)) (c : Char)
    (cs : List Char) (fn ck : String)
    (hp : pstrip l = c :: cs)
    (hc : (c == '#' || c == ';') = false)
    (hm : (gnuMatch (c :: cs) <|> bsdMatch (c :: cs)) = some (fn, ck)) :
    read_sumfile_lines ex (l :: ls) acc =
      if ex.contains fn = true then read_sumfile_lines ex ls (insertA acc fn ck)
      else read_sumfile_lines ex ls acc := by
  simp only [read_sumfile_lines]
  split
  · next heq => rw [hp] at heq; exact absurd heq (by simp)
  · next c' cs' heq =>
    rw [hp] at heq
    obtain ⟨rfl, rfl⟩ : c = c' ∧ cs = cs' :=
      ⟨(List.cons.inj heq).1, (List.cons.inj heq).2⟩
    rw [if_neg (by rw [hc]; exact Bool.false_ne_true), hm]

/-- Reading back the serialized lines of a well-formed mapping keeps exactly
the entries whose files still exist, appended to the accumulator. -/
theorem read_lines_serialized (ex : List String) :
    ∀ m : List (String × String),
      (∀ p ∈ m, isHex64 p.2 = true ∧ wfName p.1 = true) →
      (m.map Prod.fst).Nodup →
      ∀ acc, (∀ k, hasKey acc k = true → k ∉ m.map Prod.fst) →
      read_sumfile_lines ex (m.map gnuLine ++ [[]]) acc =
        some (acc ++ m.filter (fun p => ex.contains p.1)) := by
  intro m
  induction m with
  | nil =>
    intro _ _ acc _
    show read_sumfile_lines ex [[]] acc = some (acc ++ [])
    rw [List.append_nil]
    rfl
  | cons p m' ih =>
    intro hwf hnd acc hdisj
    obtain ⟨fn, ck⟩ := p
    have hp := hwf (fn, ck) (List.mem_cons_self _ m')
    obtain ⟨hstrip, hmatch⟩ := gnuLine_parse fn ck hp.1 hp.2
    obtain ⟨hlen, hhex⟩ : ck.data.length = 64 ∧ ck.data.all isHexChar = true := by
      have := hp.1
      unfold isHex64 at this
      simp only [Bool.and_eq_true, beq_iff_eq] at this
      exact this
    obtain ⟨c0, cs0, hck0⟩ : ∃ c0 cs0, ck.data = c0 :: cs0 := by
      cases hcd : ck.data with
      | nil => rw [hcd] at hlen; exact absurd hlen (by simp)
      | cons c0 cs0 => exact ⟨c0, cs0, rfl⟩
    have hc0 : isHexChar c0 = true :=
      List.all_eq_true.mp hhex c0 (by rw [hck0]; exact List.mem_cons_self c0 cs0)
    have hgl : gnuLine (fn, ck) = c0 :: (cs0 ++ [' ', ' '] ++ fn.data) := by
      unfold gnuLine
      rw [hck0]
      simp [List.cons_append, List.append_assoc]
    have hnd' : (m'.map Prod.fst).Nodup ∧ fn ∉ m'.map Prod.fst := by
      rw [List.map_cons, List.nodup_cons] at hnd
      exact ⟨hnd.2, hnd.1⟩
    have hstep := read_lines_cons_parsed ex (gnuLine (fn, ck)) (m'.map gnuLine ++ [[]])
      acc c0 (cs0 ++ [' ', ' '] ++ fn.data) fn ck
      (by rw [hstrip, hgl]) (isHexChar_not_comment c0 hc0)
      (by rw [← hgl, hmatch]; rfl)
    rw [List.map_cons, List.cons_append, hstep]
    by_cases he : ex.contains fn = true
    · rw [if_pos he]
      have hkacc : hasKey acc fn = false := by
        cases hb : hasKey acc fn
        · rfl
        · have hd := hdisj fn hb
          rw [List.map_cons] at hd
          exact absurd (List.mem_cons_self _ _) hd
      rw [insertA_eq_append acc fn ck hkacc]
      rw [ih (fun q hq => hwf q (List.mem_cons_of_mem _ hq)) hnd'.1 (acc ++ [(fn, ck)])
        (by
          intro k hk
          rw [hasKey_append] at hk
          rcases Bool.or_eq_true_iff.mp hk with hk | hk
          · intro hmem
            exact hdisj k hk (by rw [List.map_cons]; exact List.mem_cons_of_mem fn hmem)
          · rw [hasKey_cons] at hk
            rcases Bool.or_eq_true_iff.mp hk with hk | hk
            · obtain rfl : fn = k := beq_iff_eq.mp hk
              exact hnd'.2
            · exact absurd hk (by simp [hasKey]))]
      rw [List.filter_cons_of_pos (by simpa using he)]
      simp
    · rw [if_neg he]
      rw [ih (fun q hq => hwf q (List.mem_cons_of_mem _ hq)) hnd'.1 acc
        (fun k hk hmem =>
          hdisj k hk (by rw [List.map_cons]; exact List.mem_cons_of_mem fn hmem))]
      rw [List.filter_cons_of_neg (by simpa using he)]

/-- C8 (amended): Write/read round-trip for well-formed mappings — every
digest 64 hex characters, every filename nonempty with no newline and no
trailing whitespace, keys distinct.  Reading the serialized text back yields
exactly the mapping restricted to filenames still on disk, in order. -/
theorem C8_roundtrip (m : List (String × String)) (ex : List String)
    (hwf : ∀ p ∈ m, isHex64 p.2 = true ∧ wfName p.1 = true)
    (hnd : (m.map Prod.fst).Nodup) :
    read_sumfile (serializeManifest m) ex =
      some (m.filter (fun p => ex.contains p.1)) := by
  unfold read_sumfile
  rw [splitLines_serialize m (by
    intro p hp
    obtain ⟨hck, hfn⟩ := hwf p hp
    constructor
    · unfold wfName at hfn
      cases hr : p.1.data.reverse with
      | nil => rw [hr] at hfn; exact absurd hfn (by simp)
      | cons d ds =>
        rw [hr] at hfn
        simp only [Bool.and_eq_true, Bool.not_eq_true'] at hfn
        intro hmem
        have : p.1.data.contains '\n' = true := List.elem_iff.mpr hmem
        rw [hfn.1] at this
        exact absurd this (by simp)
    · intro hmem
      unfold isHex64 at hck
      simp only [Bool.and_eq_true, beq_iff_eq] at hck
      exact isHexChar_ne_newline '\n' (List.all_eq_true.mp hck.2 '\n' hmem) rfl)]
  rw [read_lines_serialized ex m hwf hnd [] (by intro k hk; exact absurd hk (by simp [hasKey]))]
  rfl

/-- C8 counterexample: the mapping `[("a ", DA)]` (filename with a trailing
space) is written, its file still exists, yet reading back yields the empty
mapping, not the original restricted mapping. -/
theorem C8_counterexample :
    read_sumfile (serializeManifest [("a ", DA)]) ["a "] = some [] ∧
    List.filter (fun p => (["a "].contains p.1)) [("a ", DA)] = [("a ", DA)] ∧
    some ([] : List (String × String)) ≠ some [("a ", DA)] := by
  decide

/-- Witness for the amended C8: a two-entry mapping round-trips onto the
still-existing file `x`. -/
theorem C8_witness :
    ((∀ p ∈ ([("x", DA), ("y", DB)] : List (String × String)),
        isHex64 p.2 = true ∧ wfName p.1 = true) ∧
      (([("x", DA), ("y", DB)] : List (String × String)).map Prod.fst).Nodup) ∧
    read_sumfile (serializeManifest [("x", DA), ("y", DB)]) ["x"] =
      some (List.filter (fun p => (["x"].contains p.1)) [("x", DA), ("y", DB)]) :=
  ⟨⟨by decide, by decide⟩, C8_roundtrip [("x", DA), ("y", DB)] ["x"] (by decide) (by decide)⟩

/-! ### Shape of parsed entries (used for create-twice idempotence) -/

theorem gnuMatch_wf (s : List Char) (fn ck : String)
    (h : gnuMatch s = some (fn, ck)) :
    isHex64 ck = true ∧ fn.data ≠ [] ∧ ∀ c ∈ fn.data, c ∈ s := by
  unfold gnuMatch at h
  dsimp only at h
  split at h
  · next hcond =>
    split at h
    · next a b f1 fs heq =>
      split at h
      · next hsp =>
        obtain ⟨rfl, rfl⟩ : String.mk (f1 :: fs) = fn ∧ String.mk (s.take 64) = ck := by
          have := Option.some.inj h
          exact ⟨congrArg Prod.fst this, congrArg Prod.snd this⟩
        refine ⟨?_, by simp, ?_⟩
        · unfold isHex64
          simp only [Bool.and_eq_true, beq_iff_eq]
          simp only [Bool.and_eq_true, decide_eq_true_eq] at hcond
          exact ⟨hcond.1, hcond.2⟩
        · intro c hc
          have hrest : c ∈ s.drop 64 := by
            rw [heq]
            exact List.mem_cons_of_mem a (List.mem_cons_of_mem b hc)
          exact List.mem_of_mem_drop hrest
      · exact absurd h (by simp)
    · exact absurd h (by simp)
  · exact absurd h (by simp)

theorem bsdTail_ck (cs : List Char) (h : bsdTail cs = true) :
    (bsdCk cs).length = 64 ∧ (bsdCk cs).all isHexChar = true := by
  unfold bsdTail at h
  split at h
  · next a b rest =>
    simp only [Bool.and_eq_true, decide_eq_true_eq] at h
    obtain ⟨⟨⟨_, _⟩, hlen⟩, hall⟩ := h
    unfold bsdCk
    constructor
    · simp only [List.drop_succ_cons, List.drop_zero]
      rw [List.length_take]
      exact Nat.min_eq_left hlen
    · simpa using hall
  · exact absurd h (by simp)

theorem bsdFind_wf (cs : List Char) :
    ∀ acc fn ck, bsdFind acc cs = some (fn, ck) →
      fn ≠ [] ∧ (∀ c ∈ fn, c ∈ acc ∨ c ∈ cs) ∧ ck.length = 64 ∧ ck.all isHexChar = true := by
  induction cs with
  | nil => intro acc fn ck h; exact absurd h (by simp [bsdFind])
  | cons c rest ih =>
    intro acc fn ck h
    unfold bsdFind at h
    split at h
    · next r hr =>
      obtain rfl : r = (fn, ck) := Option.some.inj h
      obtain ⟨h1, h2, h3, h4⟩ := ih (acc ++ [c]) fn ck hr
      refine ⟨h1, ?_, h3, h4⟩
      intro c' hc'
      rcases h2 c' hc' with hi | hi
      · rcases List.mem_append.mp hi with hi | hi
        · exact Or.inl hi
        · simp only [List.mem_singleton] at hi
          exact Or.inr (hi ▸ List.mem_cons_self c rest)
      · exact Or.inr (List.mem_cons_of_mem c hi)
    · split at h
      · next hcond =>
        obtain ⟨rfl, rfl⟩ : acc = fn ∧ bsdCk (c :: rest) = ck := by
          have := Option.some.inj h
          exact ⟨congrArg Prod.fst this, congrArg Prod.snd this⟩
        simp only [Bool.and_eq_true, Bool.not_eq_true'] at hcond
        obtain ⟨hck1, hck2⟩ := bsdTail_ck (c :: rest) hcond.2
        refine ⟨?_, fun c' hc' => Or.inl hc', hck1, hck2⟩
        intro he
        rw [he] at hcond
        exact absurd hcond.1 (by simp)
      · exact absurd h (by simp)

theorem bsdMatch_wf (s : List Char) (fn ck : String)
    (h : bsdMatch s = some (fn, ck)) :
    isHex64 ck = true ∧ fn.data ≠ [] ∧ ∀ c ∈ fn.data, c ∈ s := by
  unfold bsdMatch at h
  split at h
  · next a rest =>
    split at h
    · split at h
      · next fnl ckl hfind =>
        obtain ⟨rfl, rfl⟩ : String.mk fnl = fn ∧ String.mk ckl = ck := by
          have := Option.some.inj h
          exact ⟨congrArg Prod.fst this, congrArg Prod.snd this⟩
        obtain ⟨h1, h2, h3, h4⟩ := bsdFind_wf rest [] fnl ckl hfind
        refine ⟨?_, h1, ?_⟩
        · unfold isHex64
          simp only [Bool.and_eq_true, beq_iff_eq]
          exact ⟨h3, h4⟩
        · intro c hc
          rcases h2 c hc with hi | hi
          · exact absurd hi (List.not_mem_nil c)
          · exact List.mem_cons_of_mem _ (List.mem_cons_of_mem _ (List.mem_cons_of_mem _
              (List.mem_cons_of_mem _ (List.mem_cons_of_mem _ (List.mem_cons_of_mem _
                (List.mem_cons_of_mem _ (List.mem_cons_of_mem _ hi)))))))
      · exact absurd h (by simp)
    · exact absurd h (by simp)
  · exact absurd h (by simp)

theorem pstrip_subset (l : List Char) : ∀ c ∈ pstrip l, c ∈ l := by
  intro c hc
  unfold pstrip at hc
  rw [List.mem_reverse] at hc
  have hc1 := (List.dropWhile_sublist isPySpace).subset hc
  rw [List.mem_reverse] at hc1
  exact (List.dropWhile_sublist isPySpace).subset hc1

theorem splitLines_no_newline (cs : List Char) :
    ∀ l ∈ splitLines cs, '\n' ∉ l := by
  induction cs with
  | nil =>
    intro l hl
    simp only [splitLines, List.mem_singleton] at hl
    rw [hl]
    exact List.not_mem_nil _
  | cons c rest ih =>
    intro l hl
    simp only [splitLines] at hl
    by_cases hc : (c == '\n') = true
    · rw [if_pos hc] at hl
      rcases List.mem_cons.mp hl with rfl | hl
      · exact List.not_mem_nil _
      · exact ih l hl
    · rw [if_neg hc] at hl
      have hcn : c ≠ '\n' := by simpa using hc
      rcases hsp : splitLines rest with _ | ⟨l0, ls0⟩
      · rw [hsp] at hl
        simp only [List.mem_singleton] at hl
        rw [hl]
        intro hmem
        rcases List.mem_cons.mp hmem with he | he
        · exact hcn he.symm
        · exact absurd he (List.not_mem_nil _)
      · rw [hsp] at hl
        rcases List.mem_cons.mp hl with rfl | hl
        · intro hmem
          rcases List.mem_cons.mp hmem with he | he
          · exact hcn he.symm
          · exact ih l0 (by rw [hsp]; exact List.mem_cons_self l0 ls0) he
        · exact ih l (by rw [hsp]; exact List.mem_cons_of_mem l0 hl)

/-- Every entry a successful parse returns (beyond the accumulator) has a
64-hex digest and a nonempty, newline-free filename. -/
theorem read_lines_wfEntries (ex : List String) (ls : List (List Char)) :
    ∀ acc m, read_sumfile_lines ex ls acc = some m →
      (∀ l ∈ ls, '\n' ∉ l) → (∀ p ∈ acc, wfEntry p) → ∀ p ∈ m, wfEntry p := by
  induction ls with
  | nil =>
    intro acc m h _ hacc p hp
    obtain rfl : acc = m := Option.some.inj h
    exact hacc p hp
  | cons l0 ls ih =>
    intro acc m h hnl hacc
    have hnl0 : '\n' ∉ l0 := hnl l0 (List.mem_cons_self l0 ls)
    have hnls : ∀ l ∈ ls, '\n' ∉ l := fun l hl => hnl l (List.mem_cons_of_mem l0 hl)
    simp only [read_sumfile_lines] at h
    split at h
    · exact ih acc m h hnls hacc
    · next c cs heq =>
      split at h
      · exact ih acc m h hnls hacc
      · split at h
        · next fn ck hm =>
          have hwf : wfEntry (fn, ck) := by
            have hsub : ∀ ch ∈ fn.data, ch ∈ l0 := by
              intro ch hch
              have hg : gnuMatch (c :: cs) = some (fn, ck) ∨
                  bsdMatch (c :: cs) = some (fn, ck) := by
                cases hgm : gnuMatch (c :: cs) with
                | some q =>
                  rw [hgm] at hm
                  simp only [Option.some_orElse] at hm
                  exact Or.inl hm
                | none =>
                  rw [hgm] at hm
                  simp only [Option.none_orElse] at hm
                  exact Or.inr hm
              have hcs : ch ∈ (c :: cs) := by
                rcases hg with hg | hg
                · exact (gnuMatch_wf _ _ _ hg).2.2 ch hch
                · exact (bsdMatch_wf _ _ _ hg).2.2 ch hch
              rw [← heq] at hcs
              exact pstrip_subset l0 ch hcs
            have hg : gnuMatch (c :: cs) = some (fn, ck) ∨
                bsdMatch (c :: cs) = some (fn, ck) := by
              cases hgm : gnuMatch (c :: cs) with
              | some q =>
                rw [hgm] at hm
                simp only [Option.some_orElse] at hm
                exact Or.inl hm
              | none =>
                rw [hgm] at hm
                simp only [Option.none_orElse] at hm
                exact Or.inr hm
            refine ⟨?_, ?_, ?_⟩
            · rcases hg with hg | hg
              · exact (gnuMatch_wf _ _ _ hg).1
              · exact (bsdMatch_wf _ _ _ hg).1
            · rcases hg with hg | hg
              · exact (gnuMatch_wf _ _ _ hg).2.1
              · exact (bsdMatch_wf _ _ _ hg).2.1
            · intro hmem
              exact hnl0 (hsub '\n' hmem)
          split at h
          · refine ih _ m h hnls ?_
            intro p hp
            rcases insertA_mem acc fn ck p hp with hp | hp
            · exact hacc p hp
            · rw [hp]; exact hwf
          · exact ih acc m h hnls hacc
        · exact absurd h (by simp)

theorem read_lines_hasKey_mono (ex : List String) (ls : List (List Char)) :
    ∀ acc m n, read_sumfile_lines ex ls acc = some m →
      hasKey acc n = true → hasKey m n = true := by
  induction ls with
  | nil =>
    intro acc m n h hk
    obtain rfl : acc = m := Option.some.inj h
    exact hk
  | cons l0 ls ih =>
    intro acc m n h hk
    simp only [read_sumfile_lines] at h
    split at h
    · exact ih acc m n h hk
    · split at h
      · exact ih acc m n h hk
      · split at h
        · next fn ck _ =>
          split at h
          · exact ih _ m n h ((insertA_hasKey_iff acc fn ck n).mpr (Or.inr hk))
          · exact ih acc m n h hk
        · exact absurd h (by simp)

/-- A kept, parsed line leaves its filename as a key of the final mapping. -/
theorem read_lines_key (ex : List String) (ls : List (List Char)) :
    ∀ acc m, read_sumfile_lines ex ls acc = some m →
      ∀ l ∈ ls, ∀ (c : Char) (cs : List Char) (fn ck : String),
        pstrip l = c :: cs → (c == '#' || c == ';') = false →
        (gnuMatch (c :: cs) <|> bsdMatch (c :: cs)) = some (fn, ck) →
        ex.contains fn = true → hasKey m fn = true := by
  induction ls with
  | nil =>
    intro acc m _ l hl
    exact absurd hl (List.not_mem_nil l)
  | cons l0 ls ih =>
    intro acc m h l hl c cs fn ck hp hc hm hcont
    rcases List.mem_cons.mp hl with rfl | hl
    · rw [read_lines_cons_parsed ex l ls acc c cs fn ck hp hc hm, if_pos hcont] at h
      exact read_lines_hasKey_mono ex ls _ m fn h (insertA_hasKey_self acc fn ck)
    · simp only [read_sumfile_lines] at h
      split at h
      · exact ih acc m h l hl c cs fn ck hp hc hm hcont
      · split at h
        · exact ih acc m h l hl c cs fn ck hp hc hm hcont
        · split at h
          · split at h
            · exact ih _ m h l hl c cs fn ck hp hc hm hcont
            · exact ih acc m h l hl c cs fn ck hp hc hm hcont
          · exact absurd h (by simp)

/-- Where the entries of the loop's final dict come from: the loaded manifest
or a successful hash of a listed file. -/
theorem cfold_mem_sums (hiddenF refresh : Bool) (mt0 : Nat) (root : String)
    (hashes : List (String × HashResult)) (fs : List FileEntry) :
    ∀ s p, p ∈ (fs.foldl (createStep hiddenF refresh mt0 root hashes) s).sums →
      p ∈ s.sums ∨ ∃ f ∈ fs, p.1 = f.name ∧
        hashLookup hashes f.name = HashResult.hashed p.2 := by
  induction fs with
  | nil => intro s p h; exact Or.inl h
  | cons g rest ih =>
    intro s p h
    rw [List.foldl_cons] at h
    rcases ih _ p h with h1 | ⟨f, hf, he, hh⟩
    · rcases createStep_cases hiddenF refresh mt0 root hashes s g with hc | ⟨r, hc, _⟩ | ⟨d, hd, hc⟩
      · rw [hc] at h1; exact Or.inl h1
      · rw [hc] at h1; exact Or.inl h1
      · rw [hc] at h1
        rcases insertA_mem s.sums g.name d p h1 with h2 | h2
        · exact Or.inl h2
        · refine Or.inr ⟨g, List.mem_cons_self g rest, ?_, ?_⟩
          · rw [h2]
          · rw [h2]; exact hd
    · exact Or.inr ⟨f, List.mem_cons_of_mem g hf, he, hh⟩

/-- In plain create mode every non-hidden, non-excluded listed file either
ends up as a key of the final dict or its hash raised. -/
theorem cfold_hashOrKey (hiddenF : Bool) (mt0 : Nat) (root : String)
    (hashes : List (String × HashResult)) (fs : List FileEntry) :
    ∀ s, ∀ f ∈ fs, ((!hiddenF && f.hidden) = false) →
      (is_excluded f.name EXCLUDED_FILES = false) →
      hasKey (fs.foldl (createStep hiddenF false mt0 root hashes) s).sums f.name = true ∨
      hashLookup hashes f.name = HashResult.vanished ∨
      hashLookup hashes f.name = HashResult.denied := by
  induction fs with
  | nil => intro s f hf; exact absurd hf (List.not_mem_nil f)
  | cons g rest ih =>
    intro s f hf hh he
    rw [List.foldl_cons]
    rcases List.mem_cons.mp hf with rfl | hf
    · by_cases hk : hasKey s.sums f.name = true
      · exact Or.inl (cfold_hasKey_mono hiddenF false mt0 root hashes rest _ f.name
          (createStep_hasKey_mono hiddenF false mt0 root hashes s f f.name hk))
      · have hk' : hasKey s.sums f.name = false := by
          cases hb : hasKey s.sums f.name
          · rfl
          · exact absurd hb hk
        cases hd : hashLookup hashes f.name with
        | vanished => exact Or.inr (Or.inl rfl)
        | denied => exact Or.inr (Or.inr rfl)
        | hashed d =>
          left
          have hc1 : ((!false && hasKey s.sums f.name) || (!hiddenF && f.hidden)
              || is_excluded f.name EXCLUDED_FILES) = false := by
            simp [hk', hh, he]
          have hc2 : (false && decide (f.mtime ≤ mt0) && hasKey s.sums f.name) = false := by
            simp
          have hstep : createStep hiddenF false mt0 root hashes s f =
              ⟨insertA s.sums f.name d, true,
               s.reports ++ [Report.added (pjoin root f.name)], s.hashed ++ [f.name]⟩ := by
            unfold createStep
            rw [if_neg (by rw [hc1]; exact Bool.false_ne_true),
              if_neg (by rw [hc2]; exact Bool.false_ne_true), hd]
          rw [hstep]
          exact cfold_hasKey_mono hiddenF false mt0 root hashes rest _ f.name
            (insertA_hasKey_self s.sums f.name d)
    · exact ih _ f hf hh he

/-- One iteration on a file that is either skipped or errs: the dict, the
`write` flag and the set of `+` reports are untouched. -/
theorem createStep_skipOrErr (hiddenF refresh : Bool) (mt0 : Nat) (root : String)
    (hashes : List (String × HashResult)) (s : LoopSt) (f : FileEntry)
    (hall : ((!refresh && hasKey s.sums f.name) || (!hiddenF && f.hidden)
        || is_excluded f.name EXCLUDED_FILES) = true ∨
      hashLookup hashes f.name = HashResult.vanished ∨
      hashLookup hashes f.name = HashResult.denied) :
    (createStep hiddenF refresh mt0 root hashes s f).sums = s.sums ∧
    (createStep hiddenF refresh mt0 root hashes s f).write = s.write ∧
    (∀ p, Report.added p ∈ (createStep hiddenF refresh mt0 root hashes s f).reports →
      Report.added p ∈ s.reports) := by
  unfold createStep
  by_cases h1 : ((!refresh && hasKey s.sums f.name) || (!hiddenF && f.hidden)
      || is_excluded f.name EXCLUDED_FILES) = true
  · rw [if_pos h1]; exact ⟨rfl, rfl, fun p hp => hp⟩
  · rw [if_neg h1]
    by_cases h2 : (refresh && decide (f.mtime ≤ mt0) && hasKey s.sums f.name) = true
    · rw [if_pos h2]; exact ⟨rfl, rfl, fun p hp => hp⟩
    · rw [if_neg h2]
      rcases hall with hall | hall | hall
      · exact absurd hall h1
      · rw [hall]
        refine ⟨rfl, rfl, fun p hp => ?_⟩
        rcases List.mem_append.mp hp with hp | hp
        · exact hp
        · simp at hp
      · rw [hall]
        refine ⟨rfl, rfl, fun p hp => ?_⟩
        rcases List.mem_append.mp hp with hp | hp
        · exact hp
        · simp at hp

/-- A pass in which every file is skipped or errs: nothing is added, nothing
is marked for writing. -/
theorem cfold_skipOrErr (hiddenF refresh : Bool) (mt0 : Nat) (root : String)
    (hashes : List (String × HashResult)) (M : List (String × String))
    (fs : List FileEntry)
    (hall : ∀ f ∈ fs, ((!refresh && hasKey M f.name) || (!hiddenF && f.hidden)
        || is_excluded f.name EXCLUDED_FILES) = true ∨
      hashLookup hashes f.name = HashResult.vanished ∨
      hashLookup hashes f.name = HashResult.denied) :
    ∀ s, s.sums = M →
      (fs.foldl (createStep hiddenF refresh mt0 root hashes) s).sums = M ∧
      (fs.foldl (createStep hiddenF refresh mt0 root hashes) s).write = s.write ∧
      (∀ p, Report.added p ∈ (fs.foldl (createStep hiddenF refresh mt0 root hashes) s).reports →
        Report.added p ∈ s.reports) := by
  induction fs with
  | nil => intro s hs; exact ⟨hs, rfl, fun p hp => hp⟩
  | cons g rest ih =>
    intro s hs
    rw [List.foldl_cons]
    have hg := createStep_skipOrErr hiddenF refresh mt0 root hashes s g
      (by rw [hs]; exact hall g (List.mem_cons_self g rest))
    have hrest := ih (fun f hf => hall f (List.mem_cons_of_mem g hf))
      (createStep hiddenF refresh mt0 root hashes s g) (hg.1.trans hs)
    exact ⟨hrest.1, hrest.2.1.trans hg.2.1,
      fun p hp => hg.2.2 p (hrest.2.2 p hp)⟩

/-- The `write` flag is only ever true with a nonempty dict. -/
theorem cfold_write_nonempty (hiddenF refresh : Bool) (mt0 : Nat) (root : String)
    (hashes : List (String × HashResult)) (fs : List FileEntry) :
    ∀ s : LoopSt, (s.write = true → s.sums ≠ []) →
      (fs.foldl (createStep hiddenF refresh mt0 root hashes) s).write = true →
      (fs.foldl (createStep hiddenF refresh mt0 root hashes) s).sums ≠ [] := by
  induction fs with
  | nil => intro s hs hw; exact hs hw
  | cons g rest ih =>
    intro s hs
    rw [List.foldl_cons]
    apply ih
    rcases createStep_cases hiddenF refresh mt0 root hashes s g with hc | ⟨r, hc, _⟩ | ⟨d, _, hc⟩
      <;> rw [hc]
    · exact hs
    · exact hs
    · intro _
      cases hm : s.sums with
      | nil => simp [insertA]
      | cons q qs =>
        unfold insertA
        split
        · simp
        · simp

theorem wfName_spec (n : String) (h : wfName n = true) :
    n.data ≠ [] ∧ '\n' ∉ n.data := by
  unfold wfName at h
  cases hr : n.data.reverse with
  | nil => rw [hr] at h; exact absurd h (by simp)
  | cons d ds =>
    rw [hr] at h
    simp only [Bool.and_eq_true, Bool.not_eq_true'] at h
    constructor
    · intro he
      rw [he] at hr
      exact absurd hr (by simp)
    · intro hmem
      have : n.data.contains '\n' = true := List.elem_iff.mpr hmem
      rw [h.1] at this
      exact absurd this (by simp)

theorem hex64_no_newline (s : String) (h : isHex64 s = true) : '\n' ∉ s.data := by
  unfold isHex64 at h
  simp only [Bool.and_eq_true, beq_iff_eq] at h
  intro hmem
  exact isHexChar_ne_newline '\n' (List.all_eq_true.mp h.2 '\n' hmem) rfl

theorem gnuLine_shape (fn ck : String) (h : isHex64 ck = true) :
    ∃ c0 rest, gnuLine (fn, ck) = c0 :: rest ∧ isHexChar c0 = true := by
  obtain ⟨hlen, hhex⟩ : ck.data.length = 64 ∧ ck.data.all isHexChar = true := by
    unfold isHex64 at h
    simp only [Bool.and_eq_true, beq_iff_eq] at h
    exact h
  cases hcd : ck.data with
  | nil => rw [hcd] at hlen; exact absurd hlen (by simp)
  | cons c0 cs0 =>
    refine ⟨c0, cs0 ++ [' ', ' '] ++ fn.data, ?_, ?_⟩
    · unfold gnuLine
      rw [hcd]
      simp [List.cons_append, List.append_assoc]
    · exact List.all_eq_true.mp hhex c0 (by rw [hcd]; exact List.mem_cons_self c0 cs0)

/-- `+` lines of `createDir` all come from the loop (the write-failure `!`
line is not one of them). -/
theorem createDir_added (hiddenF reset refresh : Bool) (st : DirSt)
    (m0 : List (String × String)) (mt0 : Nat)
    (hload : createLoad reset st = some (m0, mt0)) (p : String)
    (h : Report.added p ∈ (createDir hiddenF reset refresh st).reports) :
    Report.added p ∈ (st.files.foldl (createStep hiddenF refresh mt0 st.dirPath st.hashes)
      ⟨m0, false, [], []⟩).reports := by
  simp only [createDir, hload] at h
  split at h
  · split at h
    · exact h
    · rcases List.mem_append.mp h with h | h
      · exact h
      · simp at h
  · exact h

/-- The state `createDir` hands back: unchanged unless the loop marked a
write, the dict is nonempty and the write succeeded, in which case the
sumfile carries the serialized final dict. -/
theorem createDir_newSt (hiddenF reset refresh : Bool) (st : DirSt)
    (m0 : List (String × String)) (mt0 : Nat)
    (hload : createLoad reset st = some (m0, mt0)) :
    ((createDir hiddenF reset refresh st).newSt = st ∧
      (((st.files.foldl (createStep hiddenF refresh mt0 st.dirPath st.hashes)
          ⟨m0, false, [], []⟩).write &&
        !(st.files.foldl (createStep hiddenF refresh mt0 st.dirPath st.hashes)
          ⟨m0, false, [], []⟩).sums.isEmpty) = false ∨ st.writeOk = false)) ∨
    ((createDir hiddenF reset refresh st).newSt =
        { st with
          sumIsFile := true
          sumContent := serializeManifest
            (st.files.foldl (createStep hiddenF refresh mt0 st.dirPath st.hashes)
              ⟨m0, false, [], []⟩).sums
          sumMtime := st.newMtime } ∧
      st.writeOk = true ∧
      (st.files.foldl (createStep hiddenF refresh mt0 st.dirPath st.hashes)
        ⟨m0, false, [], []⟩).write = true) := by
  simp only [createDir, hload]
  split
  · next hcond =>
    split
    · next hwok =>
      refine Or.inr ⟨rfl, hwok, ?_⟩
      exact (Bool.and_eq_true_iff.mp hcond).1
    · next hwok =>
      refine Or.inl ⟨rfl, Or.inr ?_⟩
      cases hb : st.writeOk
      · rfl
      · exact absurd hb hwok
  · next hcond =>
    refine Or.inl ⟨rfl, Or.inl ?_⟩
    cases hb : ((st.files.foldl (createStep hiddenF refresh mt0 st.dirPath st.hashes)
        ⟨m0, false, [], []⟩).write &&
      !(st.files.foldl (createStep hiddenF refresh mt0 st.dirPath st.hashes)
        ⟨m0, false, [], []⟩).sums.isEmpty)
    · rfl
    · exact absurd hb hcond

/-- `createDir` after a failed manifest load: one `!` report for the sumfile
and nothing else. -/
theorem createDir_none_out (hiddenF reset refresh : Bool) (st : DirSt)
    (hload : createLoad reset st = none) :
    createDir hiddenF reset refresh st =
      ⟨[Report.denied (pjoin st.dirPath SUMFILE_NAME)], [], false, [], none, st⟩ := by
  simp [createDir, hload]

/-- Entries loaded by the create branch are well-formed parsed entries (when
there is no sumfile, the loaded dict is empty). -/
theorem createLoad_wf (reset : Bool) (st : DirSt) (m0 : List (String × String)) (mt0 : Nat)
    (hload : createLoad reset st = some (m0, mt0)) : ∀ p ∈ m0, wfEntry p := by
  unfold createLoad at hload
  split at hload
  · split at hload
    · exact absurd hload (by simp)
    · split at hload
      · exact absurd hload (by simp)
      · next m hm =>
        have hm0 : m = m0 := congrArg Prod.fst (Option.some.inj hload)
        exact hm0 ▸ read_lines_wfEntries st.onDisk (splitLines st.sumContent) [] m hm
          (splitLines_no_newline st.sumContent) (fun p hp => absurd hp (List.not_mem_nil p))
  · have hm0 : ([] : List (String × String)) = m0 :=
      congrArg Prod.fst (Option.some.inj hload)
    intro p hp
    rw [← hm0] at hp
    exact absurd hp (List.not_mem_nil p)

/-- A create pass in which every listed file is already keyed in the loaded
dict, hidden, excluded, or failing to hash: no `+` reports, no write. -/
theorem createDir_noop (st' : DirSt) (hiddenF : Bool)
    (m2 : List (String × String)) (mt2 : Nat)
    (hload : createLoad false st' = some (m2, mt2))
    (hall : ∀ f ∈ st'.files, ((!false && hasKey m2 f.name) || (!hiddenF && f.hidden)
        || is_excluded f.name EXCLUDED_FILES) = true ∨
      hashLookup st'.hashes f.name = HashResult.vanished ∨
      hashLookup st'.hashes f.name = HashResult.denied) :
    (∀ p, Report.added p ∉ (createDir hiddenF false false st').reports) ∧
    (createDir hiddenF false false st').didWrite = false := by
  have hfold := cfold_skipOrErr hiddenF false mt2 st'.dirPath st'.hashes m2 st'.files hall
    ⟨m2, false, [], []⟩ rfl
  obtain ⟨_, _, hwrite, _⟩ := createDir_fields hiddenF false false st' m2 mt2 hload
  constructor
  · intro p hp
    have h1 := createDir_added hiddenF false false st' m2 mt2 hload p hp
    exact absurd (hfold.2.2 p h1) (List.not_mem_nil _)
  · rw [hwrite]
    exact hfold.2.1

/-- C7: Idempotence of create — running the create branch (no refresh, no
reset) twice on a directory whose listing, hash outcomes, on-disk set and
manifest are unchanged between the runs produces no `+` reports on the second
run and leaves its `write` flag clear.  Hypotheses: listed names are
well-formed filenames, computed digests are 64-hex, listed files exist on
disk, and the first run's write (if any) succeeds. -/
theorem C7_create_idempotent (st : DirSt) (hiddenF : Bool)
    (hwfn : ∀ f ∈ st.files, wfName f.name = true)
    (hwfh : ∀ f ∈ st.files, ∀ d, hashLookup st.hashes f.name = HashResult.hashed d →
      isHex64 d = true)
    (hdisk : ∀ f ∈ st.files, st.onDisk.contains f.name = true)
    (hwok : st.writeOk = true) :
    (∀ p, Report.added p ∉
      (createDir hiddenF false false (createDir hiddenF false false st).newSt).reports) ∧
    (createDir hiddenF false false (createDir hiddenF false false st).newSt).didWrite
      = false := by
  cases hload : createLoad false st with
  | none =>
    have ho := createDir_none_out hiddenF false false st hload
    have hnew : (createDir hiddenF false false st).newSt = st := by rw [ho]
    rw [hnew, ho]
    exact ⟨fun p hp => by simp at hp, rfl⟩
  | some pair =>
    obtain ⟨m0, mt0⟩ := pair
    rcases createDir_newSt hiddenF false false st m0 mt0 hload with
      ⟨hnew, hcase⟩ | ⟨hnew, _, _⟩
    · rcases hcase with hcase | hcase
      swap
      · rw [hwok] at hcase; exact absurd hcase (by simp)
      have hwf : (st.files.foldl (createStep hiddenF false mt0 st.dirPath st.hashes)
          ⟨m0, false, [], []⟩).write = false := by
        cases hb : (st.files.foldl (createStep hiddenF false mt0 st.dirPath st.hashes)
            ⟨m0, false, [], []⟩).write
        · rfl
        · have hne := cfold_write_nonempty hiddenF false mt0 st.dirPath st.hashes st.files
            ⟨m0, false, [], []⟩ (fun h => by simp at h) hb
          have hie : (st.files.foldl (createStep hiddenF false mt0 st.dirPath st.hashes)
              ⟨m0, false, [], []⟩).sums.isEmpty = false := by
            cases hc : (st.files.foldl (createStep hiddenF false mt0 st.dirPath st.hashes)
                ⟨m0, false, [], []⟩).sums
            · exact absurd hc hne
            · rfl
          rw [hb, hie] at hcase
          simp at hcase
      rw [hnew]
      obtain ⟨_, _, hwrite, _⟩ := createDir_fields hiddenF false false st m0 mt0 hload
      constructor
      · intro p hp
        have h1 := createDir_added hiddenF false false st m0 mt0 hload p hp
        have h2 := cfold_added_of_write_false hiddenF false mt0 st.dirPath st.hashes st.files
          ⟨m0, false, [], []⟩ p hwf h1
        exact absurd h2 (List.not_mem_nil _)
      · rw [hwrite]; exact hwf
    · rw [hnew]
      set S1 := st.files.foldl (createStep hiddenF false mt0 st.dirPath st.hashes)
        ⟨m0, false, [], []⟩ with hS1
      have hm0wf := createLoad_wf false st m0 mt0 hload
      have hS1wf : ∀ p ∈ S1.sums, isHex64 p.2 = true ∧ '\n' ∉ p.1.data := by
        intro p hp
        rw [hS1] at hp
        rcases cfold_mem_sums hiddenF false mt0 st.dirPath st.hashes st.files
          ⟨m0, false, [], []⟩ p hp with h | ⟨f, hf, he, hh⟩
        · have := hm0wf p h
          exact ⟨this.1, this.2.2⟩
        · refine ⟨hwfh f hf p.2 hh, ?_⟩
          rw [he]
          exact (wfName_spec f.name (hwfn f hf)).2
      have hsplit : splitLines (serializeManifest S1.sums) = S1.sums.map gnuLine ++ [[]] :=
        splitLines_serialize S1.sums (fun q hq =>
          ⟨(hS1wf q hq).2, hex64_no_newline q.2 (hS1wf q hq).1⟩)
      by_cases hro : st.sumReadOk = true
      · cases hparse2 : read_sumfile (serializeManifest S1.sums) st.onDisk with
        | none =>
          have hload2 : createLoad false
              { st with
                sumIsFile := true
                sumContent := serializeManifest S1.sums
                sumMtime := st.newMtime } = none := by
            simp [createLoad, hro, hparse2]
          rw [createDir_none_out hiddenF false false _ hload2]
          exact ⟨fun p hp => by simp at hp, rfl⟩
        | some m2 =>
          have hload2 : createLoad false
              { st with
                sumIsFile := true
                sumContent := serializeManifest S1.sums
                sumMtime := st.newMtime } = some (m2, st.newMtime) := by
            simp [createLoad, hro, hparse2]
          have hall : ∀ f ∈ st.files,
              ((!false && hasKey m2 f.name) || (!hiddenF && f.hidden)
                || is_excluded f.name EXCLUDED_FILES) = true ∨
              hashLookup st.hashes f.name = HashResult.vanished ∨
              hashLookup st.hashes f.name = HashResult.denied := by
            intro f hf
            by_cases hhid : (!hiddenF && f.hidden) = true
            · left; rw [hhid]; simp
            by_cases hexc : is_excluded f.name EXCLUDED_FILES = true
            · left; rw [hexc]; simp
            have hhid' : (!hiddenF && f.hidden) = false := by
              cases hb : (!hiddenF && f.hidden)
              · rfl
              · exact absurd hb hhid
            have hexc' : is_excluded f.name EXCLUDED_FILES = false := by
              cases hb : is_excluded f.name EXCLUDED_FILES
              · rfl
              · exact absurd hb hexc
            cases hd : hashLookup st.hashes f.name with
            | vanished => exact Or.inr (Or.inl rfl)
            | denied => exact Or.inr (Or.inr rfl)
            | hashed d =>
              left
              have hkey1 : hasKey S1.sums f.name = true := by
                rcases cfold_hashOrKey hiddenF mt0 st.dirPath st.hashes st.files
                  ⟨m0, false, [], []⟩ f hf hhid' hexc' with h | h | h
                · rw [← hS1] at h; exact h
                · rw [hd] at h; exact absurd h (by simp)
                · rw [hd] at h; exact absurd h (by simp)
              obtain ⟨d', hd'⟩ := (hasKey_iff_exists S1.sums f.name).mp hkey1
              have hwfe := hS1wf (f.name, d') hd'
              obtain ⟨hstrip, hmatch⟩ := gnuLine_parse f.name d' hwfe.1 (hwfn f hf)
              obtain ⟨c0, rest0, hgl, hc0⟩ := gnuLine_shape f.name d' hwfe.1
              have hline : gnuLine (f.name, d') ∈ splitLines (serializeManifest S1.sums) := by
                rw [hsplit]
                exact List.mem_append_left _ (List.mem_map_of_mem gnuLine hd')
              have hkey2 : hasKey m2 f.name = true := by
                refine read_lines_key st.onDisk (splitLines (serializeManifest S1.sums)) [] m2
                  hparse2 (gnuLine (f.name, d')) hline c0 rest0 f.name d' ?_ ?_ ?_ ?_
                · rw [hstrip, hgl]
                · exact isHexChar_not_comment c0 hc0
                · rw [← hgl, hmatch]; rfl
                · exact hdisk f hf
              rw [hkey2]
              simp
          exact createDir_noop _ hiddenF m2 st.newMtime hload2 hall
      · have hro' : st.sumReadOk = false := by
          cases hb : st.sumReadOk
          · rfl
          · exact absurd hb hro
        have hload2 : createLoad false
            { st with
              sumIsFile := true
              sumContent := serializeManifest S1.sums
              sumMtime := st.newMtime } = none := by
          simp [createLoad, hro']
        rw [createDir_none_out hiddenF false false _ hload2]
        exact ⟨fun p hp => by simp at hp, rfl⟩

/-- Witness for C7 at `stC1`: the first create run adds `b` and writes; the
second run adds nothing and does not write. -/
theorem C7_witness :
    ((∀ f ∈ stC1.files, wfName f.name = true) ∧ stC1.writeOk = true) ∧
    (Report.added "r/b" ∉
      (createDir false false false (createDir false false false stC1).newSt).reports ∧
      (createDir false false false (createDir false false false stC1).newSt).didWrite
        = false) :=
  ⟨⟨by decide, rfl⟩,
    (C7_create_idempotent stC1 false (by decide)
      (by
        intro f hf d hd
        fin_cases hf
        · have h2 : HashResult.hashed DC = HashResult.hashed d :=
            (by decide : hashLookup stC1.hashes "a" = HashResult.hashed DC).symm.trans hd
          obtain rfl := HashResult.hashed.inj h2
          decide
        · have h2 : HashResult.hashed DB = HashResult.hashed d :=
            (by decide : hashLookup stC1.hashes "b" = HashResult.hashed DB).symm.trans hd
          obtain rfl := HashResult.hashed.inj h2
          decide)
      (by decide) rfl).1 "r/b",
    (C7_create_idempotent stC1 false (by decide)
      (by
        intro f hf d hd
        fin_cases hf
        · have h2 : HashResult.hashed DC = HashResult.hashed d :=
            (by decide : hashLookup stC1.hashes "a" = HashResult.hashed DC).symm.trans hd
          obtain rfl := HashResult.hashed.inj h2
          decide
        · have h2 : HashResult.hashed DB = HashResult.hashed d :=
            (by decide : hashLookup stC1.hashes "b" = HashResult.hashed DB).symm.trans hd
          obtain rfl := HashResult.hashed.inj h2
          decide)
      (by decide) rfl).2⟩

end Checksums
